import Mathlib

/-!
# Verification of the flexcache engine

A shallow embedding of the `flexcache` cache engine (files `bcache.h`,
`flexcache.c`, `flexcache.h`, `flexcache_policy_lru.c`) together with proofs
about its behaviour.

Modelling conventions:

* A C pointer to a byte-string key is modelled by the byte string itself
  (`List Nat`); a `NULL` key pointer and a zero-length key are conflated
  (both are rejected by every operation).
* An opaque value handle (`void *`) is modelled by `Option Nat`, `none`
  standing for the `NULL` pointer.
* `uint64_t` values are `Nat`s; the saturating arithmetic of
  `safe_expiration` is written out with the explicit bound `U64_MAX`
  (all inputs of interest are below `2 ^ 64`, so `Nat` addition agrees
  with the machine addition everywhere except at the explicitly handled
  overflow check).  `int64_t` byte sizes are `Int`s; the engine rejects
  negative sizes up front and only ever sums accepted sizes, so no
  signed wrap-around is reachable without signed-overflow UB.
* `size_t item_count` is a `Nat`; the only decrement sites remove a node
  that is actually a member, so no underflow is reachable.
* The intrusive node is simultaneously a hash-table member and a list
  member in C (one allocation linked into both).  Here the hash index and
  the list are two Lean lists holding the same node values; node identity
  (pointer equality) is value equality, which is faithful because the
  engine never stores two distinct nodes with the same key.
* The doubly linked list of `utlist` (vendored as `lib/utlist.h`, not part
  of the provided sources) is used circularly by `flexcache.c`
  (`bcache.h`: "This is a circular doubly-linked list"); accordingly the
  successor pointer `n->next` is modelled by `cnext`, the circular
  successor in the current list, and `c->list` by the first element.
* Host callback side effects (the `on_delete` hook, the key/value free
  hooks, allocation and release of the copied key, the copied value, the
  entry wrapper and the node storage) are recorded in an event trace
  returned next to the new state.
-/

/-- An expiry instant / clock reading (`uint64_t`, millisecond unit). -/
abbrev Instant := Nat

/-- A key: an opaque byte sequence with explicit length (`key_len` is the
list length). -/
abbrev BKey := List Nat

/-- An opaque host value handle; `none` is the `NULL` pointer. -/
abbrev Handle := Option Nat

/-- `UINT64_MAX`. -/
def U64_MAX : Nat := 2 ^ 64 - 1

/-- `flexcache_entry` (flexcache.h): the internal value wrapper stored as the
node's `value`, carrying the user value handle and the absolute expiration
time (`0` = never expires). -/
structure FEntry where
  user_value : Handle
  expires_at_ms : Instant
deriving DecidableEq, Repr

/-- `bcache_node` (bcache.h): key bytes and length, value pointer (for
flexcache nodes this points to an `FEntry`; `none` models a `NULL` value
pointer), and the accounted byte size.  The `prev`/`next`/`hh` link fields
are represented by the node's position inside the container's two lists. -/
structure BNode where
  key : BKey
  value : Option FEntry
  byte_size : Int
deriving DecidableEq, Repr

/-- `bcache` (bcache.h): hash index, ordered list, and the two counters.
`hashmap` holds the nodes in hash-insertion order, `list` holds the same
nodes in list order (head first). -/
structure BCache where
  hashmap : List BNode
  list : List BNode
  item_count : Nat
  total_bytes : Int

/-- Host-visible side effects of one engine call, in the order the
corresponding C calls happen. -/
inductive FEvent where
  /-- the `on_delete` hook with its four data arguments -/
  | ondelete (key : BKey) (key_len : Nat) (value : Handle) (byte_size : Int)
  /-- the key free hook applied to the stored key -/
  | keyFree (key : BKey)
  /-- the value free hook applied to the stored (non-null) user value -/
  | valueFree (value : Nat)
  /-- release of the entry wrapper (`free(e)`) -/
  | freeEntry
  /-- release of the node storage (`uthash_free` inside `bcache_remove_node`) -/
  | freeNode
  /-- a successful key copy hook call (`fc->key_copy`) -/
  | allocKey
  /-- a successful value copy hook call (`fc->value_copy`) -/
  | allocValue
  /-- allocation of the entry wrapper (`malloc(sizeof *e)`) -/
  | allocEntry
  /-- allocation of the node storage (`bcache_node_new`) -/
  | allocNode
deriving DecidableEq, Repr

/-- The policy touch callback type (`flexcache_touch_fn`): may reposition the
node inside the container. -/
abbrev TouchFn := BCache → BNode → BCache

/-- The policy pop callback type (`flexcache_pop_fn`): selects an eviction
victim. -/
abbrev PopFn := BCache → Option BNode

/-- `flexcache` (flexcache.h).  The injected clock `now_fn` is modelled by
the field `now_ms` holding its current reading; the copy/free/ondelete
callbacks by booleans saying whether each hook is configured. -/
structure FCache where
  base : BCache
  now_ms : Instant
  key_copy : Bool
  key_free : Bool
  value_copy : Bool
  value_free : Bool
  ondelete : Bool
  touch_fn : Option TouchFn
  pop_fn : Option PopFn
  item_max : Nat
  byte_max : Int
  scan_interval_ms : Instant
  last_scan_ms : Instant

/- ============================================================
   bcache operations (bcache.h)
   ============================================================ -/

/-- `bcache_init`. -/
def bcache_init : BCache := ⟨[], [], 0, 0⟩

/-- Key lookup in the hash index (`HASH_FIND`). -/
def BCache.findKey (c : BCache) (key : BKey) : Option BNode :=
  c.hashmap.find? (fun m => m.key == key)

/-- `bcache_get`. -/
def bcache_get (c : BCache) (key : BKey) : Option BNode :=
  if key = [] then none else c.findKey key

/-- `bcache_insert`: fails (`none`, for C's `-1`) when a node with the same
key bytes already exists; otherwise adds the node to the hash index and
appends it at the list tail, updating both counters. -/
def bcache_insert (c : BCache) (n : BNode) : Option BCache :=
  match c.findKey n.key with
  | some _ => none
  | none => some
      { hashmap := c.hashmap ++ [n]
        list := c.list ++ [n]
        item_count := c.item_count + 1
        total_bytes := c.total_bytes + n.byte_size }

/-- `bcache_remove_node`: detaches the node from the hash index
(`HASH_DEL`) and the list (`DL_DELETE`) and decrements the counters.  The
release of the node storage (`uthash_free`) is recorded by the caller. -/
def bcache_remove_node (c : BCache) (n : BNode) : BCache :=
  { hashmap := c.hashmap.erase n
    list := c.list.erase n
    item_count := c.item_count - 1
    total_bytes := c.total_bytes - n.byte_size }

/-- `bcache_move_back`: `DL_DELETE` then `DL_APPEND` — relocates the node to
the list tail. -/
def bcache_move_back (c : BCache) (n : BNode) : BCache :=
  { c with list := (c.list.erase n) ++ [n] }

/-- The circular successor (`n->next`) of a node in the current list: the
element after the first occurrence of `n`, wrapping from the tail to the
head.  (Never consulted when `n` is not a member.) -/
def succIn : List BNode → BNode → Option BNode
  | [], _ => none
  | x :: xs, n => if x = n then xs.head? else succIn xs n

/-- `n->next` as a total function (defaults to `n` on an empty list, which
is unreachable at every use site). -/
def cnext (l : List BNode) (n : BNode) : BNode :=
  match succIn l n with
  | some m => m
  | none => l.headD n

/- ============================================================
   flexcache internal helpers (flexcache.c)
   ============================================================ -/

/-- `delete_node` (flexcache.c): the deletion pipeline.  Snapshot the node's
data, fire `on_delete` when configured, detach the node from the container,
then run the key free hook (when configured), the value free hook (when
configured and the value is non-null), and release the entry wrapper. -/
def delete_node (fc : FCache) (n : BNode) : FCache × List FEvent :=
  let key := n.key
  let key_len := n.key.length
  let byte_sz := n.byte_size
  let e := n.value
  let user_value : Handle := match e with
    | some en => en.user_value
    | none => none
  let ev0 : List FEvent :=
    if fc.ondelete then [.ondelete key key_len user_value byte_sz] else []
  let fc1 : FCache := { fc with base := bcache_remove_node fc.base n }
  let ev2 : List FEvent := if fc.key_free then [.keyFree key] else []
  let ev3 : List FEvent := match user_value with
    | some x => if fc.value_free then [.valueFree x] else []
    | none => []
  (fc1, ev0 ++ [.freeNode] ++ ev2 ++ ev3 ++ [.freeEntry])

/-- The expiry test of `flexcache.c`
(`e && e->expires_at_ms && e->expires_at_ms <= now_ms`). -/
def entryExpired (e : Option FEntry) (now_ms : Instant) : Bool :=
  match e with
  | some en => en.expires_at_ms != 0 && en.expires_at_ms ≤ now_ms
  | none => false

/-- One pass of the `do { ... } while (n != head)` loop of `remove_expired`
(flexcache.c).  `n` is the current node, `head` the local `head` variable
(re-read from the container only after a deletion).  The fuel bounds the
number of iterations; the traversal advances along the original order and
performs at most `item_count` iterations, so the fuel supplied by
`remove_expired` is never exhausted. -/
def removeExpiredLoop (now_ms : Instant) :
    Nat → FCache → BNode → BNode → FCache × List FEvent
  | 0, fc, _, _ => (fc, [])
  | fuel + 1, fc, n, head =>
    let is_last : Bool :=
      decide (cnext fc.base.list n = head) || decide (fc.base.item_count = 1)
    let next := cnext fc.base.list n
    if entryExpired n.value now_ms then
      let r := delete_node fc n
      match r.1.base.list.head? with
      | none => r
      | some head1 =>
        if is_last then r
        else if next = head1 then r
        else
          let r2 := removeExpiredLoop now_ms fuel r.1 next head1
          (r2.1, r.2 ++ r2.2)
    else
      if is_last then (fc, [])
      else if next = head then (fc, [])
      else removeExpiredLoop now_ms fuel fc next head

/-- `remove_expired` (flexcache.c). -/
def remove_expired (fc : FCache) (now_ms : Instant) : FCache × List FEvent :=
  match fc.base.list.head? with
  | none => (fc, [])
  | some head => removeExpiredLoop now_ms (fc.base.item_count + 1) fc head head

/-- The over-limit test of `enforce_limits`
(`over_items || over_bytes`). -/
def overLimit (fc : FCache) : Bool :=
  (fc.item_max != 0 && decide (fc.item_max < fc.base.item_count)) ||
  (fc.byte_max != 0 && decide (fc.byte_max < fc.base.total_bytes))

/-- `victim = fc->pop_fn ? fc->pop_fn(&fc->base, fc->policy_ctx) : NULL`. -/
def popVictim (fc : FCache) : Option BNode :=
  match fc.pop_fn with
  | some p => p fc.base
  | none => none

/-- The `for (;;)` loop of `enforce_limits` (flexcache.c).  Each productive
iteration deletes a policy-chosen member, so for a policy that returns
members the loop runs at most `item_count` times and the fuel supplied by
`enforce_limits` is never exhausted. -/
def enforceLoop : Nat → FCache → FCache × List FEvent
  | 0, fc => (fc, [])
  | fuel + 1, fc =>
    if overLimit fc then
      match popVictim fc with
      | none => (fc, [])
      | some victim =>
        let r := delete_node fc victim
        let r2 := enforceLoop fuel r.1
        (r2.1, r.2 ++ r2.2)
    else (fc, [])

/-- `enforce_limits` (flexcache.c). -/
def enforce_limits (fc : FCache) : FCache × List FEvent :=
  enforceLoop (fc.base.item_count + 1) fc

/-- `safe_expiration` (flexcache.c): `0` when `ttl_ms == 0`, otherwise the
saturating sum `now_ms + ttl_ms` clamped to `UINT64_MAX`.  Faithful for all
`now_ms, ttl_ms < 2 ^ 64`. -/
def safe_expiration (now_ms ttl_ms : Instant) : Instant :=
  if ttl_ms = 0 then 0
  else if now_ms > U64_MAX - ttl_ms then U64_MAX
  else now_ms + ttl_ms

/- ============================================================
   flexcache public API (flexcache.c)
   ============================================================ -/

/-- `flexcache_init` (the container handle and `now_fn` are always valid
here, so the `-1` guard is not representable). -/
def flexcache_init (item_max : Nat) (byte_max : Int)
    (scan_interval_ms : Instant)
    (key_copy key_free value_copy value_free ondelete : Bool)
    (now_ms : Instant) : FCache :=
  { base := bcache_init
    now_ms := now_ms
    key_copy := key_copy
    key_free := key_free
    value_copy := value_copy
    value_free := value_free
    ondelete := ondelete
    touch_fn := none
    pop_fn := none
    item_max := item_max
    byte_max := byte_max
    scan_interval_ms := scan_interval_ms
    last_scan_ms := 0 }

/-- `flexcache_set_policy_hooks`. -/
def flexcache_set_policy_hooks (fc : FCache)
    (t : Option TouchFn) (p : Option PopFn) : FCache :=
  { fc with touch_fn := t, pop_fn := p }

/-- The `do { ... } while (n != head)` loop of `flexcache_destroy`. -/
def destroyLoop : Nat → FCache → BNode → BNode → FCache × List FEvent
  | 0, fc, _, _ => (fc, [])
  | fuel + 1, fc, n, head =>
    let is_last : Bool :=
      decide (cnext fc.base.list n = head) || decide (fc.base.item_count = 1)
    let next := cnext fc.base.list n
    let r := delete_node fc n
    match r.1.base.list.head? with
    | none => r
    | some head1 =>
      if is_last then r
      else if next = head1 then r
      else
        let r2 := destroyLoop fuel r.1 next head1
        (r2.1, r.2 ++ r2.2)

/-- `flexcache_destroy` (flexcache.c). -/
def flexcache_destroy (fc : FCache) : FCache × List FEvent :=
  match fc.base.list.head? with
  | none => (fc, [])
  | some head => destroyLoop (fc.base.item_count + 1) fc head head

/-- `flexcache_insert` as defined in `flexcache.c` (the seven-parameter
body; the eight-parameter declaration of `flexcache.h` is discussed with
`resolve_expiration_spec` below).  Status `-2` = invalid argument or copy
failure, `-1` = duplicate key, `0` = success.  The key/value copy hooks are
modelled as succeeding and returning a handle with the same content; the
`!v` failure test after the value copy therefore fires exactly when the
caller's value handle is `NULL` while a value copy hook is configured. -/
def flexcache_insert (fc : FCache) (key : BKey) (value : Handle)
    (byte_size : Int) (ttl_ms : Instant) : Int × FCache × List FEvent :=
  if key = [] ∨ byte_size < 0 then (-2, fc, [])
  else
    let now_ms := fc.now_ms
    let k := key
    let evk : List FEvent := if fc.key_copy then [.allocKey] else []
    let v := value
    if fc.value_copy ∧ v = none then
      (-2, fc, evk ++ (if fc.key_free then [.keyFree k] else []))
    else
      let evv : List FEvent := if fc.value_copy then [.allocValue] else []
      let e : FEntry := ⟨v, safe_expiration now_ms ttl_ms⟩
      let n : BNode := ⟨k, some e, byte_size⟩
      match bcache_insert fc.base n with
      | none =>
        (-1, fc,
          evk ++ evv ++ [.allocEntry, .allocNode, .freeNode, .freeEntry]
            ++ (if fc.key_free then [.keyFree k] else [])
            ++ (match v with
                | some x => if fc.value_free then [.valueFree x] else []
                | none => []))
      | some base1 =>
        let r := enforce_limits { fc with base := base1 }
        (0, r.1, evk ++ evv ++ [.allocEntry, .allocNode] ++ r.2)

/-- `flexcache_get` (flexcache.c). -/
def flexcache_get (fc : FCache) (key : BKey) :
    Handle × FCache × List FEvent :=
  if key = [] then (none, fc, [])
  else
    match bcache_get fc.base key with
    | none => (none, fc, [])
    | some n =>
      let now_ms := fc.now_ms
      if entryExpired n.value now_ms then
        let r := delete_node fc n
        (none, r.1, r.2)
      else
        let fc1 : FCache :=
          match fc.touch_fn with
          | some t => { fc with base := t fc.base n }
          | none => fc
        (match n.value with
          | some e => e.user_value
          | none => none, fc1, [])

/-- `flexcache_delete` (flexcache.c). -/
def flexcache_delete (fc : FCache) (key : BKey) :
    Int × FCache × List FEvent :=
  if key = [] then (-1, fc, [])
  else
    match bcache_get fc.base key with
    | none => (-1, fc, [])
    | some n =>
      let r := delete_node fc n
      (0, r.1, r.2)

/-- `flexcache_scan_and_clean` (flexcache.c). -/
def flexcache_scan_and_clean (fc : FCache) : FCache × List FEvent :=
  let r := remove_expired fc fc.now_ms
  let r2 := enforce_limits r.1
  (r2.1, r.2 ++ r2.2)

/-- `flexcache_maybe_scan_and_clean` (flexcache.c). -/
def flexcache_maybe_scan_and_clean (fc : FCache) : FCache × List FEvent :=
  let now_ms := fc.now_ms
  if fc.scan_interval_ms = 0 ∨ fc.last_scan_ms = 0 ∨
      fc.scan_interval_ms ≤ now_ms - fc.last_scan_ms then
    let fc0 := { fc with last_scan_ms := now_ms }
    let r := remove_expired fc0 now_ms
    let r2 := enforce_limits r.1
    (r2.1, r.2 ++ r2.2)
  else (fc, [])

/-- `flexcache_item_count`. -/
def flexcache_item_count (fc : FCache) : Nat := fc.base.item_count

/-- `flexcache_total_bytes`. -/
def flexcache_total_bytes (fc : FCache) : Int := fc.base.total_bytes

/- ============================================================
   LRU policy (flexcache_policy_lru.c)
   ============================================================ -/

/-- `lru_touch`: move the accessed node to the back of the list. -/
def lru_touch : TouchFn := fun base node => bcache_move_back base node

/-- `lru_pop`: the list head is the least recently used node. -/
def lru_pop : PopFn := fun base => base.list.head?

/-- `flexcache_policy_lru_init`. -/
def flexcache_policy_lru_init (fc : FCache) : FCache :=
  flexcache_set_policy_hooks fc (some lru_touch) (some lru_pop)

/- ============================================================
   The specified expiration resolution (spec §4.2.1 / flexcache.h)
   ============================================================ -/

/-- Modelled from the spec: the expiration resolution rule of §4.2.1 for
the insert signature taking both a relative TTL and an absolute expiry,
as declared and documented in `flexcache.h` (`expires_at_ms`: "Absolute
expiration timestamp (0 = no expiration, ignored if ttl_ms > 0)") — the
function body present in `flexcache.c` takes no absolute-expiry argument.
Rule: if TTL > 0, saturating `now + TTL`; else if the absolute expiry
argument > 0, that value verbatim; else 0 (never expires). -/
def resolve_expiration_spec (now_ms ttl_ms expires_at_ms : Instant) : Instant :=
  if ttl_ms > 0 then safe_expiration now_ms ttl_ms
  else if expires_at_ms > 0 then expires_at_ms
  else 0

/- ============================================================
   Observations used by the theorems
   ============================================================ -/

/-- Whether an event is an `on_delete` hook invocation. -/
def FEvent.isOndelete : FEvent → Bool
  | .ondelete _ _ _ _ => true
  | _ => false

/-- Whether an event is a key free hook invocation. -/
def FEvent.isKeyFree : FEvent → Bool
  | .keyFree _ => true
  | _ => false

/-- Whether an event is a value free hook invocation. -/
def FEvent.isValueFree : FEvent → Bool
  | .valueFree _ => true
  | _ => false

/-- Whether an event is the entry wrapper release. -/
def FEvent.isFreeEntry : FEvent → Bool
  | .freeEntry => true
  | _ => false

/-- Whether an event is the node storage release. -/
def FEvent.isFreeNode : FEvent → Bool
  | .freeNode => true
  | _ => false

/-- Whether an event is a key copy allocation. -/
def FEvent.isAllocKey : FEvent → Bool
  | .allocKey => true
  | _ => false

/-- Whether an event is a value copy allocation. -/
def FEvent.isAllocValue : FEvent → Bool
  | .allocValue => true
  | _ => false

/-- Whether an event is an entry wrapper allocation. -/
def FEvent.isAllocEntry : FEvent → Bool
  | .allocEntry => true
  | _ => false

/-- Whether an event is a node storage allocation. -/
def FEvent.isAllocNode : FEvent → Bool
  | .allocNode => true
  | _ => false

/-- Number of events in a trace satisfying a predicate. -/
def countEv (p : FEvent → Bool) (evs : List FEvent) : Nat :=
  (evs.filter p).length

/-- Whether some currently stored entry is expired at the container's
current clock reading. -/
def hasExpiredEntry (fc : FCache) : Bool :=
  fc.base.list.any (fun n => entryExpired n.value fc.now_ms)

/-- The keys currently stored, in the order of the given node list. -/
def nodeKeys (l : List BNode) : List BKey :=
  l.map (fun n => n.key)

/-- Key membership in the hash index, as a Boolean. -/
def BCache.containsKey (c : BCache) (k : BKey) : Bool :=
  (c.findKey k).isSome

/- ============================================================
   Reachability invariant and hook contracts
   ============================================================ -/

/-- The container invariant of spec §3: the hash index and the list hold
the same nodes, each key occurs at most once, `item_count` is the number
of stored nodes and `total_bytes` the sum of their accounted sizes. -/
structure CacheInv (fc : FCache) : Prop where
  perm : fc.base.hashmap.Perm fc.base.list
  nodup : (nodeKeys fc.base.list).Nodup
  count : fc.base.item_count = fc.base.list.length
  bytes : fc.base.total_bytes = (fc.base.list.map (fun n => n.byte_size)).sum

/-- The policy `touch` contract (spec §4.3): may reposition the node but
must not insert, delete, or change counters. -/
def WBTouch (t : TouchFn) : Prop :=
  ∀ b n, n ∈ b.list →
    (t b n).hashmap = b.hashmap ∧ (t b n).list.Perm b.list ∧
    (t b n).item_count = b.item_count ∧ (t b n).total_bytes = b.total_bytes

/-- The policy `pop` contract (spec §4.3): must return a node currently in
the container, or absent. -/
def WBPop (p : PopFn) : Prop :=
  ∀ b n, p b = some n → n ∈ b.list

/-- Both configured policy hooks (if any) honour their contracts. -/
def WBHooks (fc : FCache) : Prop :=
  (∀ t, fc.touch_fn = some t → WBTouch t) ∧
  (∀ p, fc.pop_fn = some p → WBPop p)

/- ============================================================
   Operation sequences
   ============================================================ -/

/-- One host-issued operation on a flexcache instance.  `setTime` models
the injected clock advancing between calls. -/
inductive FOp where
  | ins (k : BKey) (v : Handle) (sz : Int) (ttl : Instant)
  | get (k : BKey)
  | del (k : BKey)
  | scan
  | maybeScan
  | clear
  | setTime (t : Instant)

/-- Apply one operation, keeping only the state. -/
def applyFOp (fc : FCache) : FOp → FCache
  | .ins k v sz ttl => (flexcache_insert fc k v sz ttl).2.1
  | .get k => (flexcache_get fc k).2.1
  | .del k => (flexcache_delete fc k).2.1
  | .scan => (flexcache_scan_and_clean fc).1
  | .maybeScan => (flexcache_maybe_scan_and_clean fc).1
  | .clear => (flexcache_destroy fc).1
  | .setTime t => { fc with now_ms := t }

/-- Run a sequence of operations. -/
def runFOps (fc : FCache) : List FOp → FCache
  | [] => fc
  | op :: ops => runFOps (applyFOp fc op) ops

/- ============================================================
   LRU refinement model
   ============================================================ -/

/-- Operations considered by the LRU ordering claim: inserts (with TTL 0,
so no entry ever expires) and gets. -/
inductive LruOp where
  | ins (k : BKey) (v : Handle) (sz : Int)
  | get (k : BKey)

/-- An LRU-policy cache as built by `flexcache_init` +
`flexcache_policy_lru_init` (no copy/free/delete hooks, no throttling). -/
def lruCache (item_max : Nat) (byte_max : Int) (now : Instant) : FCache :=
  flexcache_policy_lru_init
    (flexcache_init item_max byte_max 0 false false false false false now)

/-- Apply one `LruOp` to the concrete engine. -/
def applyLruOp (fc : FCache) : LruOp → FCache
  | .ins k v sz => (flexcache_insert fc k v sz 0).2.1
  | .get k => (flexcache_get fc k).2.1

/-- Run a sequence of `LruOp`s on the concrete engine. -/
def runLru (fc : FCache) : List LruOp → FCache
  | [] => fc
  | op :: ops => runLru (applyLruOp fc op) ops

/-- The projection of a node visible to the recency model: its key and its
accounted size. -/
def nodeProj (n : BNode) : BKey × Int := (n.key, n.byte_size)

/-- The recency model: stored (key, size) pairs ordered from least recently
used (head) to most recently used (tail). -/
abbrev RecencyList := List (BKey × Int)

/-- The recency projection of a concrete cache. -/
def projList (fc : FCache) : RecencyList :=
  fc.base.list.map nodeProj

/-- The over-limit test on the recency model. -/
def specOver (im : Nat) (bm : Int) (s : RecencyList) : Bool :=
  (im != 0 && decide (im < s.length)) ||
  (bm != 0 && decide (bm < (s.map Prod.snd).sum))

/-- Capacity enforcement on the recency model: drop least-recently-used
entries (heads) while over limit. -/
def specEvict (im : Nat) (bm : Int) : Nat → RecencyList → RecencyList
  | 0, s => s
  | fuel + 1, s =>
    if specOver im bm s then
      match s with
      | [] => s
      | _ :: t => specEvict im bm fuel t
    else s

/-- Lookup on the recency model. -/
def specLookup (s : RecencyList) (k : BKey) : Option (BKey × Int) :=
  s.find? (fun p => p.1 == k)

/-- One step of the recency model: an accepted insert of a fresh key
appends at the most-recently-used end and then enforces capacity; a hit
moves the pair to the most-recently-used end. -/
def specStep (im : Nat) (bm : Int) (s : RecencyList) : LruOp → RecencyList
  | .ins k _ sz =>
    if k = [] ∨ sz < 0 then s
    else if (specLookup s k).isSome then s
    else specEvict im bm (s.length + 2) (s ++ [(k, sz)])
  | .get k =>
    if k = [] then s
    else
      match specLookup s k with
      | some p => (s.erase p) ++ [p]
      | none => s

/-- Run a sequence of `LruOp`s on the recency model. -/
def specRun (im : Nat) (bm : Int) (s : RecencyList) : List LruOp → RecencyList
  | [] => s
  | op :: ops => specRun im bm (specStep im bm s op) ops

/-- The relation maintained between a concrete LRU cache and the recency
model: same recency order of (key, size) pairs, the container invariant,
the LRU hooks, the configured limits, no value copy hook, nonempty keys
and never-expiring entries. -/
structure LruRel (im : Nat) (bm : Int) (fc : FCache) (s : RecencyList) :
    Prop where
  proj : projList fc = s
  inv : CacheInv fc
  touch : fc.touch_fn = some lru_touch
  pop : fc.pop_fn = some lru_pop
  imax : fc.item_max = im
  bmax : fc.byte_max = bm
  vcopy : fc.value_copy = false
  entries : ∀ n ∈ fc.base.list, n.key ≠ [] ∧ ∃ uv, n.value = some ⟨uv, 0⟩


/-- The configuration fields untouched by the internal loops (everything
but `base`): used to transport hook hypotheses through them. -/
def EqCfg (fc fc' : FCache) : Prop :=
  fc'.now_ms = fc.now_ms ∧ fc'.key_copy = fc.key_copy ∧
  fc'.key_free = fc.key_free ∧ fc'.value_copy = fc.value_copy ∧
  fc'.value_free = fc.value_free ∧ fc'.ondelete = fc.ondelete ∧
  fc'.touch_fn = fc.touch_fn ∧ fc'.pop_fn = fc.pop_fn ∧
  fc'.item_max = fc.item_max ∧ fc'.byte_max = fc.byte_max ∧
  fc'.scan_interval_ms = fc.scan_interval_ms ∧
  fc'.last_scan_ms = fc.last_scan_ms

/-- The policy hook fields, which no operation changes. -/
def EqHooks (fc fc' : FCache) : Prop :=
  fc'.touch_fn = fc.touch_fn ∧ fc'.pop_fn = fc.pop_fn

/- ============================================================
   Concrete instances evaluated by the theorems
   ============================================================ -/

/-- A plain cache (no hooks, no limits) whose clock reads 1000. -/
def plainCache : FCache :=
  flexcache_init 0 0 0 false false false false false 1000

/-- `plainCache` after inserting key `[107]` with TTL 0 (the scenario of
`test_ttl_absolute_expiration`, which passes absolute expiry 5000 for an
entry meant to expire at 5000). -/
def c1Inserted : FCache :=
  (flexcache_insert plainCache [107] (some 7) 100 0).2.1

/-- A cache with the `on_delete` hook configured holding three entries
`[1]`, `[2]`, `[3]` (inserted in that order, never expiring). -/
def c5Cache : FCache :=
  (flexcache_insert ((flexcache_insert ((flexcache_insert
    (flexcache_init 0 0 0 false false false false true 1000)
    [1] (some 11) 100 0).2.1) [2] (some 12) 100 0).2.1)
    [3] (some 13) 100 0).2.1

/-- A cache with the `on_delete` hook holding `[1]` and `[2]`, both
inserted at clock 1000 with TTL 500 (so both expired), observed at
clock 2000. -/
def c5SweepCache : FCache :=
  { ((flexcache_insert ((flexcache_insert
      (flexcache_init 0 0 0 false false false false true 1000)
      [1] (some 11) 100 500).2.1) [2] (some 12) 100 500).2.1)
    with now_ms := 2000 }

/-- A cache with the `on_delete` hook after two successful inserts
(`[4]` and `[5]`). -/
def c6Cache : FCache :=
  (flexcache_insert ((flexcache_insert
    (flexcache_init 0 0 0 false false false false true 1000)
    [4] (some 14) 7 0).2.1) [5] (some 15) 8 0).2.1

/-- A cache with counted key/value copy hooks holding key `[9]`. -/
def c2Cache : FCache :=
  (flexcache_insert (flexcache_init 0 0 0 true true true true false 1000)
    [9] (some 5) 10 0).2.1

/-- A cache holding key `[1]` inserted at clock 1000 with TTL 5000
(expiry 6000), observed at clock 7000 — the entry is currently expired. -/
def c3Expired : FCache :=
  { (flexcache_insert (flexcache_init 0 0 0 false false false false true 1000)
      [1] (some 7) 100 5000).2.1 with now_ms := 7000 }

/-- An LRU cache holding the never-expiring key `[2]`. -/
def c3Hit : FCache :=
  (flexcache_insert (flexcache_policy_lru_init
    (flexcache_init 0 0 0 false false false false false 1000))
    [2] (some 8) 50 0).2.1

/-- A node used by the over-limit witnesses. -/
def wNode1 : BNode := ⟨[1], some ⟨some 1, 0⟩, 10⟩

/-- Another node used by the over-limit witnesses. -/
def wNode2 : BNode := ⟨[2], some ⟨some 2, 0⟩, 10⟩

/-- An over-limit LRU container state (`item_max = 1`, two items). -/
def c4Over : FCache :=
  { base := ⟨[wNode1, wNode2], [wNode1, wNode2], 2, 20⟩
    now_ms := 0
    key_copy := false
    key_free := false
    value_copy := false
    value_free := false
    ondelete := false
    touch_fn := some lru_touch
    pop_fn := some lru_pop
    item_max := 1
    byte_max := 0
    scan_interval_ms := 0
    last_scan_ms := 0 }

/-- The same over-limit state with a policy whose `pop` returns absent. -/
def c4OverNone : FCache :=
  { c4Over with pop_fn := some (fun _ => none) }

/-- The same over-limit state with no policy hooks at all. -/
def c9Over : FCache :=
  { c4Over with touch_fn := none, pop_fn := none }

/-- An LRU cache capped at 2 items with the clock at 0. -/
def lruSmall : FCache := lruCache 2 0 0

/-- A mixed operation sequence exercising insert, hit, duplicate,
expiry, sweep, eviction, delete and destroy. -/
def c7Ops : List FOp :=
  [.ins [1] (some 1) 1 0, .ins [2] (some 2) 1 0, .get [1],
   .ins [3] (some 3) 1 5, .ins [3] (some 9) 1 0, .setTime 10,
   .scan, .get [7], .del [2], .maybeScan, .clear]

/-- An LRU cache with no value copy hook holding key `[3]` whose stored
user value handle is `NULL`. -/
def c10Inserted : FCache :=
  (flexcache_insert (flexcache_policy_lru_init
    (flexcache_init 0 0 0 false false false false false 1000))
    [3] none 10 0).2.1

/- ============================================================
   Basic helper lemmas
   ============================================================ -/

theorem find?_append_of_none {α : Type} {p : α → Bool} {l1 l2 : List α}
    (h : l1.find? p = none) : (l1 ++ l2).find? p = l2.find? p := by
  induction l1 with
  | nil => simp
  | cons x xs ih =>
    cases hx : p x with
    | true =>
      rw [List.find?_cons_of_pos _ hx] at h
      exact absurd h (by simp)
    | false =>
      rw [List.find?_cons_of_neg _ (by simp [hx])] at h
      rw [List.cons_append, List.find?_cons_of_neg _ (by simp [hx])]
      exact ih h

theorem find?_eq_head?_filter {α : Type} (p : α → Bool) (l : List α) :
    l.find? p = (l.filter p).head? := by
  induction l with
  | nil => simp
  | cons x xs ih =>
    cases hx : p x with
    | true => rw [List.find?_cons_of_pos _ hx, List.filter_cons_of_pos hx]; rfl
    | false =>
      rw [List.find?_cons_of_neg _ (by simp [hx]), List.filter_cons_of_neg (by simp [hx])]
      exact ih

theorem find?_eq_of_perm_of_unique {α : Type} {p : α → Bool}
    {l1 l2 : List α} (hp : l1.Perm l2)
    (hu : ∀ a b, a ∈ l1 → b ∈ l1 → p a = true → p b = true → a = b) :
    l1.find? p = l2.find? p := by
  rw [find?_eq_head?_filter, find?_eq_head?_filter]
  have hf : (l1.filter p).Perm (l2.filter p) := hp.filter p
  cases h1 : l1.filter p with
  | nil =>
    rw [h1] at hf
    rw [← hf.nil_eq]
  | cons a rest =>
    rw [h1] at hf
    cases h2 : l2.filter p with
    | nil =>
      rw [h2] at hf
      exact absurd hf.eq_nil (by simp)
    | cons b rest2 =>
      rw [h2] at hf
      have hb1 : b ∈ l1.filter p := by
        rw [h1]
        exact hf.mem_iff.mpr (List.mem_cons_self b rest2)
      have ha1 : a ∈ l1.filter p := by
        rw [h1]; exact List.mem_cons_self a rest
      have : a = b :=
        hu a b (List.mem_of_mem_filter ha1) (List.mem_of_mem_filter hb1)
          (List.of_mem_filter ha1) (List.of_mem_filter hb1)
      simp [this]

theorem sum_map_erase_of_mem (f : BNode → Int) :
    ∀ (l : List BNode) (n : BNode), n ∈ l →
      ((l.erase n).map f).sum = (l.map f).sum - f n := by
  intro l
  induction l with
  | nil => intro n hn; cases hn
  | cons x xs ih =>
    intro n hn
    by_cases hx : x = n
    · subst hx
      rw [List.erase_cons_head]
      simp [add_sub_cancel_left]
    · have hn' : n ∈ xs := by
        cases hn with
        | head => exact absurd rfl hx
        | tail _ h => exact h
      rw [List.erase_cons_tail (by simp [hx])]
      simp only [List.map_cons, List.sum_cons, ih n hn']
      ring

theorem mem_of_head?_eq {α : Type} {l : List α} {a : α}
    (h : l.head? = some a) : a ∈ l := by
  cases l with
  | nil => cases h
  | cons x xs =>
    simp only [List.head?_cons, Option.some.injEq] at h
    exact h ▸ List.mem_cons_self x xs

/- ============================================================
   Structural lemmas about the container
   ============================================================ -/

theorem eq_of_mem_of_keys_nodup {l : List BNode}
    (h : (nodeKeys l).Nodup) {a b : BNode}
    (ha : a ∈ l) (hb : b ∈ l) (hk : a.key = b.key) : a = b :=
  List.inj_on_of_nodup_map h ha hb hk

theorem findKey_eq_list_find? {fc : FCache} (inv : CacheInv fc) (k : BKey) :
    fc.base.findKey k = fc.base.list.find? (fun m => m.key == k) := by
  apply find?_eq_of_perm_of_unique inv.perm
  intro a b ha hb hpa hpb
  have ha' : a ∈ fc.base.list := inv.perm.mem_iff.mp ha
  have hb' : b ∈ fc.base.list := inv.perm.mem_iff.mp hb
  exact eq_of_mem_of_keys_nodup inv.nodup ha' hb'
    ((beq_iff_eq.mp hpa).trans (beq_iff_eq.mp hpb).symm)

theorem mem_hashmap_of_findKey {c : BCache} {k : BKey} {n : BNode}
    (h : c.findKey k = some n) : n ∈ c.hashmap :=
  List.mem_of_find?_eq_some h

theorem key_of_findKey {c : BCache} {k : BKey} {n : BNode}
    (h : c.findKey k = some n) : n.key = k := by
  unfold BCache.findKey at h
  have h2 := List.find?_some h
  simp only [beq_iff_eq] at h2
  exact h2

theorem bcache_get_some {c : BCache} {k : BKey} {n : BNode}
    (h : bcache_get c k = some n) :
    k ≠ [] ∧ c.findKey k = some n := by
  unfold bcache_get at h
  by_cases hk : k = []
  · rw [if_pos hk] at h; cases h
  · rw [if_neg hk] at h; exact ⟨hk, h⟩

theorem mem_list_of_bcache_get {fc : FCache} (inv : CacheInv fc)
    {k : BKey} {n : BNode} (h : bcache_get fc.base k = some n) :
    n ∈ fc.base.list :=
  inv.perm.mem_iff.mp (mem_hashmap_of_findKey (bcache_get_some h).2)

theorem succIn_mem : ∀ {l : List BNode} {n m : BNode},
    succIn l n = some m → m ∈ l := by
  intro l
  induction l with
  | nil => intro n m h; cases h
  | cons x xs ih =>
    intro n m h
    unfold succIn at h
    by_cases hx : x = n
    · rw [if_pos hx] at h
      exact List.mem_cons_of_mem x (mem_of_head?_eq h)
    · rw [if_neg hx] at h
      exact List.mem_cons_of_mem x (ih h)

theorem cnext_mem {l : List BNode} {n : BNode} (h : l ≠ []) :
    cnext l n ∈ l := by
  unfold cnext
  cases hs : succIn l n with
  | some m => exact succIn_mem hs
  | none =>
    cases l with
    | nil => exact absurd rfl h
    | cons a t => exact List.mem_cons_self a t

theorem succIn_ne_self : ∀ {l : List BNode} {n : BNode},
    l.Nodup → succIn l n ≠ some n := by
  intro l
  induction l with
  | nil => intro n _ h; cases h
  | cons x xs ih =>
    intro n hnd h
    rcases List.nodup_cons.mp hnd with ⟨hx, hxs⟩
    unfold succIn at h
    by_cases hxn : x = n
    · rw [if_pos hxn] at h
      exact hx (hxn ▸ mem_of_head?_eq h)
    · rw [if_neg hxn] at h
      exact ih hxs h

theorem cnext_eq_self {l : List BNode} {n : BNode}
    (hnd : l.Nodup) (hn : n ∈ l) (h : cnext l n = n) : l = [n] := by
  unfold cnext at h
  cases hs : succIn l n with
  | some m =>
    rw [hs] at h
    exact absurd (h ▸ hs) (succIn_ne_self hnd)
  | none =>
    rw [hs] at h
    cases l with
    | nil => cases hn
    | cons a t =>
      simp only [List.headD_cons] at h
      subst h
      cases t with
      | nil => rfl
      | cons b r =>
        unfold succIn at hs
        rw [if_pos rfl] at hs
        cases hs

theorem nodes_nodup {fc : FCache} (inv : CacheInv fc) :
    fc.base.list.Nodup :=
  List.Nodup.of_map _ inv.nodup

/- ============================================================
   Invariant preservation
   ============================================================ -/

theorem delete_node_fst (fc : FCache) (n : BNode) :
    (delete_node fc n).1 = { fc with base := bcache_remove_node fc.base n } :=
  rfl

theorem cacheInv_delete {fc : FCache} {n : BNode}
    (inv : CacheInv fc) (hn : n ∈ fc.base.list) :
    CacheInv (delete_node fc n).1 := by
  rw [delete_node_fst]
  constructor
  · exact List.Perm.erase n inv.perm
  · exact List.Nodup.sublist
      (List.Sublist.map _ (List.erase_sublist n fc.base.list)) inv.nodup
  · show fc.base.item_count - 1 = (fc.base.list.erase n).length
    rw [inv.count, List.length_erase_of_mem hn]
  · show fc.base.total_bytes - n.byte_size =
      ((fc.base.list.erase n).map (fun n => n.byte_size)).sum
    rw [inv.bytes, sum_map_erase_of_mem _ _ n hn]

theorem cacheInv_bcache_insert {fc : FCache} {n : BNode} {base1 : BCache}
    (inv : CacheInv fc) (h : bcache_insert fc.base n = some base1) :
    CacheInv { fc with base := base1 } := by
  unfold bcache_insert at h
  cases hf : fc.base.findKey n.key with
  | some m => rw [hf] at h; cases h
  | none =>
    rw [hf] at h
    injection h with h
    subst h
    have hkey : ∀ m ∈ fc.base.list, m.key ≠ n.key := by
      intro m hm he
      have hm' : m ∈ fc.base.hashmap := inv.perm.mem_iff.mpr hm
      have := List.find?_eq_none.mp hf m hm'
      exact this (beq_iff_eq.mpr he)
    constructor
    · exact inv.perm.append_right [n]
    · show ((fc.base.list ++ [n]).map (fun m => m.key)).Nodup
      rw [List.map_append]
      refine List.nodup_append.mpr ⟨inv.nodup, List.nodup_singleton _, ?_⟩
      intro a ha hb
      simp only [List.map_cons, List.map_nil, List.mem_singleton] at hb
      rcases List.mem_map.mp ha with ⟨m, hm, hmk⟩
      exact hkey m hm (hmk.trans hb)
    · show fc.base.item_count + 1 = (fc.base.list ++ [n]).length
      rw [inv.count, List.length_append, List.length_cons, List.length_nil]
    · show fc.base.total_bytes + n.byte_size = _
      rw [inv.bytes, List.map_append, List.sum_append]
      simp

theorem cacheInv_touch {fc : FCache} {t : TouchFn} {n : BNode}
    (inv : CacheInv fc) (wt : WBTouch t) (hn : n ∈ fc.base.list) :
    CacheInv { fc with base := t fc.base n } := by
  obtain ⟨hh, hl, hc, hb⟩ := wt fc.base n hn
  constructor
  · show (t fc.base n).hashmap.Perm (t fc.base n).list
    rw [hh]
    exact inv.perm.trans hl.symm
  · exact ((hl.map _).nodup_iff).mpr inv.nodup
  · show (t fc.base n).item_count = (t fc.base n).list.length
    rw [hc, inv.count, hl.length_eq]
  · show (t fc.base n).total_bytes = _
    rw [hb, inv.bytes]
    exact ((hl.map _).sum_eq).symm

theorem wbTouch_lru : WBTouch lru_touch := by
  intro b n hn
  refine ⟨rfl, ?_, rfl, rfl⟩
  show (b.list.erase n ++ [n]).Perm b.list
  exact (List.perm_append_singleton n _).trans (List.perm_cons_erase hn).symm

theorem wbPop_lru : WBPop lru_pop := by
  intro b n h
  exact mem_of_head?_eq h

theorem wbHooks_lruCache (fc : FCache) :
    WBHooks (flexcache_policy_lru_init fc) := by
  constructor
  · intro t ht
    injection ht with ht
    exact ht ▸ wbTouch_lru
  · intro p hp
    injection hp with hp
    exact hp ▸ wbPop_lru

theorem eqCfg_refl (fc : FCache) : EqCfg fc fc :=
  ⟨rfl, rfl, rfl, rfl, rfl, rfl, rfl, rfl, rfl, rfl, rfl, rfl⟩

theorem eqCfg_trans {a b c : FCache} (h1 : EqCfg a b) (h2 : EqCfg b c) :
    EqCfg a c := by
  obtain ⟨e1, e2, e3, e4, e5, e6, e7, e8, e9, e10, e11, e12⟩ := h1
  obtain ⟨f1, f2, f3, f4, f5, f6, f7, f8, f9, f10, f11, f12⟩ := h2
  exact ⟨f1.trans e1, f2.trans e2, f3.trans e3, f4.trans e4, f5.trans e5,
    f6.trans e6, f7.trans e7, f8.trans e8, f9.trans e9, f10.trans e10,
    f11.trans e11, f12.trans e12⟩

theorem eqCfg_delete (fc : FCache) (n : BNode) :
    EqCfg fc (delete_node fc n).1 :=
  ⟨rfl, rfl, rfl, rfl, rfl, rfl, rfl, rfl, rfl, rfl, rfl, rfl⟩

theorem enforceLoop_inv : ∀ (fuel : Nat) (fc : FCache), CacheInv fc →
    (∀ p, fc.pop_fn = some p → WBPop p) →
    CacheInv (enforceLoop fuel fc).1 ∧ EqCfg fc (enforceLoop fuel fc).1 := by
  intro fuel
  induction fuel with
  | zero => intro fc inv _; exact ⟨inv, eqCfg_refl fc⟩
  | succ fuel ih =>
    intro fc inv hp
    by_cases hov : overLimit fc = true
    · cases hv : popVictim fc with
      | none =>
        simp only [enforceLoop, hov, if_true, hv]
        exact ⟨inv, eqCfg_refl fc⟩
      | some victim =>
        have hmem : victim ∈ fc.base.list := by
          unfold popVictim at hv
          cases hpf : fc.pop_fn with
          | none => rw [hpf] at hv; cases hv
          | some p =>
            rw [hpf] at hv
            exact hp p hpf fc.base victim hv
        have inv' : CacheInv (delete_node fc victim).1 :=
          cacheInv_delete inv hmem
        have hp' : ∀ p, (delete_node fc victim).1.pop_fn = some p → WBPop p := hp
        simp only [enforceLoop, hov, if_true, hv]
        exact ⟨(ih _ inv' hp').1,
          eqCfg_trans (eqCfg_delete fc victim) (ih _ inv' hp').2⟩
    · simp only [enforceLoop, hov, if_false]
      exact ⟨inv, eqCfg_refl fc⟩


theorem removeExpiredLoop_inv : ∀ (fuel : Nat) (now : Instant)
    (fc : FCache) (n head : BNode), CacheInv fc → n ∈ fc.base.list →
    CacheInv (removeExpiredLoop now fuel fc n head).1 ∧
    EqCfg fc (removeExpiredLoop now fuel fc n head).1 := by
  intro fuel
  induction fuel with
  | zero => intro now fc n head inv _; exact ⟨inv, eqCfg_refl fc⟩
  | succ fuel ih =>
    intro now fc n head inv hn
    have hne : fc.base.list ≠ [] := List.ne_nil_of_mem hn
    have hdel : CacheInv (delete_node fc n).1 ∧ EqCfg fc (delete_node fc n).1 :=
      ⟨cacheInv_delete inv hn, eqCfg_delete fc n⟩
    simp only [removeExpiredLoop]
    split
    · split
      · exact hdel
      · split
        · exact hdel
        · split
          · exact hdel
          · rename_i head1 hh hlast hnh
            have hcount : fc.base.item_count ≠ 1 := by
              intro hc
              exact hlast (by
                rw [Bool.or_eq_true, decide_eq_true_iff, decide_eq_true_iff]
                exact Or.inr hc)
            have hnn : cnext fc.base.list n ≠ n := by
              intro hsame
              have h1 := cnext_eq_self (nodes_nodup inv) hn hsame
              apply hcount
              rw [inv.count, h1]
              rfl
            have hmem' : cnext fc.base.list n ∈ (delete_node fc n).1.base.list := by
              show cnext fc.base.list n ∈ fc.base.list.erase n
              exact (List.mem_erase_of_ne hnn).mpr (cnext_mem hne)
            have hrec := ih now (delete_node fc n).1 (cnext fc.base.list n)
              head1 hdel.1 hmem'
            exact ⟨hrec.1, eqCfg_trans hdel.2 hrec.2⟩
    · split
      · exact ⟨inv, eqCfg_refl fc⟩
      · split
        · exact ⟨inv, eqCfg_refl fc⟩
        · exact ih now fc (cnext fc.base.list n) head inv (cnext_mem hne)

theorem destroyLoop_inv : ∀ (fuel : Nat) (fc : FCache) (n head : BNode),
    CacheInv fc → n ∈ fc.base.list →
    CacheInv (destroyLoop fuel fc n head).1 ∧
    EqCfg fc (destroyLoop fuel fc n head).1 := by
  intro fuel
  induction fuel with
  | zero => intro fc n head inv _; exact ⟨inv, eqCfg_refl fc⟩
  | succ fuel ih =>
    intro fc n head inv hn
    have hne : fc.base.list ≠ [] := List.ne_nil_of_mem hn
    have hdel : CacheInv (delete_node fc n).1 ∧ EqCfg fc (delete_node fc n).1 :=
      ⟨cacheInv_delete inv hn, eqCfg_delete fc n⟩
    simp only [destroyLoop]
    split
    · exact hdel
    · split
      · exact hdel
      · split
        · exact hdel
        · rename_i head1 hh hlast hnh
          have hcount : fc.base.item_count ≠ 1 := by
            intro hc
            exact hlast (by
              rw [Bool.or_eq_true, decide_eq_true_iff, decide_eq_true_iff]
              exact Or.inr hc)
          have hnn : cnext fc.base.list n ≠ n := by
            intro hsame
            have h1 := cnext_eq_self (nodes_nodup inv) hn hsame
            apply hcount
            rw [inv.count, h1]
            rfl
          have hmem' : cnext fc.base.list n ∈ (delete_node fc n).1.base.list := by
            show cnext fc.base.list n ∈ fc.base.list.erase n
            exact (List.mem_erase_of_ne hnn).mpr (cnext_mem hne)
          have hrec := ih (delete_node fc n).1 (cnext fc.base.list n)
            head1 hdel.1 hmem'
          exact ⟨hrec.1, eqCfg_trans hdel.2 hrec.2⟩

theorem eqCfg_hooks {a b : FCache} (h : EqCfg a b) : EqHooks a b :=
  ⟨h.2.2.2.2.2.2.1, h.2.2.2.2.2.2.2.1⟩

theorem eqHooks_refl (fc : FCache) : EqHooks fc fc := ⟨rfl, rfl⟩

theorem eqHooks_trans {a b c : FCache} (h1 : EqHooks a b) (h2 : EqHooks b c) :
    EqHooks a c :=
  ⟨h2.1.trans h1.1, h2.2.trans h1.2⟩

theorem wbHooks_of_eqHooks {fc fc' : FCache} (he : EqHooks fc fc')
    (wb : WBHooks fc) : WBHooks fc' := by
  constructor
  · intro t ht
    rw [he.1] at ht
    exact wb.1 t ht
  · intro p hp
    rw [he.2] at hp
    exact wb.2 p hp

theorem cacheInv_base_eq {fc fc' : FCache} (h : fc'.base = fc.base)
    (inv : CacheInv fc) : CacheInv fc' := by
  refine ⟨?_, ?_, ?_, ?_⟩ <;> rw [h]
  · exact inv.perm
  · exact inv.nodup
  · exact inv.count
  · exact inv.bytes

theorem enforce_limits_inv {fc : FCache} (inv : CacheInv fc)
    (hp : ∀ p, fc.pop_fn = some p → WBPop p) :
    CacheInv (enforce_limits fc).1 ∧ EqCfg fc (enforce_limits fc).1 :=
  enforceLoop_inv _ fc inv hp

theorem remove_expired_inv {fc : FCache} (now : Instant) (inv : CacheInv fc) :
    CacheInv (remove_expired fc now).1 ∧ EqCfg fc (remove_expired fc now).1 := by
  unfold remove_expired
  cases hh : fc.base.list.head? with
  | none => exact ⟨inv, eqCfg_refl fc⟩
  | some head =>
    exact removeExpiredLoop_inv _ now fc head head inv (mem_of_head?_eq hh)

theorem flexcache_destroy_inv {fc : FCache} (inv : CacheInv fc) :
    CacheInv (flexcache_destroy fc).1 ∧ EqCfg fc (flexcache_destroy fc).1 := by
  unfold flexcache_destroy
  cases hh : fc.base.list.head? with
  | none => exact ⟨inv, eqCfg_refl fc⟩
  | some head =>
    exact destroyLoop_inv _ fc head head inv (mem_of_head?_eq hh)

theorem applyFOp_inv (fc : FCache) (op : FOp) (inv : CacheInv fc)
    (wb : WBHooks fc) :
    CacheInv (applyFOp fc op) ∧ EqHooks fc (applyFOp fc op) := by
  cases op with
  | ins k v sz ttl =>
    show CacheInv (flexcache_insert fc k v sz ttl).2.1 ∧
      EqHooks fc (flexcache_insert fc k v sz ttl).2.1
    simp only [flexcache_insert]
    split
    · exact ⟨inv, eqHooks_refl fc⟩
    · split
      · exact ⟨inv, eqHooks_refl fc⟩
      · split
        · exact ⟨inv, eqHooks_refl fc⟩
        · rename_i base1 hbi
          have inv1 : CacheInv { fc with base := base1 } :=
            cacheInv_bcache_insert inv hbi
          have hp1 : ∀ p, ({ fc with base := base1 } : FCache).pop_fn = some p →
              WBPop p := wb.2
          have h := enforce_limits_inv inv1 hp1
          exact ⟨h.1, eqCfg_hooks h.2⟩
  | get k =>
    show CacheInv (flexcache_get fc k).2.1 ∧ EqHooks fc (flexcache_get fc k).2.1
    simp only [flexcache_get]
    split
    · exact ⟨inv, eqHooks_refl fc⟩
    · split
      · exact ⟨inv, eqHooks_refl fc⟩
      · rename_i n hget
        split
        · exact ⟨cacheInv_delete inv (mem_list_of_bcache_get inv hget),
            eqHooks_refl fc⟩
        · split <;>
          · split
            · rename_i t ht
              exact ⟨cacheInv_touch inv (wb.1 t ht)
                (mem_list_of_bcache_get inv hget), eqHooks_refl fc⟩
            · exact ⟨inv, eqHooks_refl fc⟩
  | del k =>
    show CacheInv (flexcache_delete fc k).2.1 ∧
      EqHooks fc (flexcache_delete fc k).2.1
    simp only [flexcache_delete]
    split
    · exact ⟨inv, eqHooks_refl fc⟩
    · split
      · exact ⟨inv, eqHooks_refl fc⟩
      · rename_i n hget
        exact ⟨cacheInv_delete inv (mem_list_of_bcache_get inv hget),
          eqHooks_refl fc⟩
  | scan =>
    show CacheInv (flexcache_scan_and_clean fc).1 ∧
      EqHooks fc (flexcache_scan_and_clean fc).1
    simp only [flexcache_scan_and_clean]
    have h1 := remove_expired_inv fc.now_ms inv
    have hp1 : ∀ p, (remove_expired fc fc.now_ms).1.pop_fn = some p → WBPop p := by
      intro p hp
      rw [(eqCfg_hooks h1.2).2] at hp
      exact wb.2 p hp
    have h2 := enforce_limits_inv h1.1 hp1
    exact ⟨h2.1, eqHooks_trans (eqCfg_hooks h1.2) (eqCfg_hooks h2.2)⟩
  | maybeScan =>
    show CacheInv (flexcache_maybe_scan_and_clean fc).1 ∧
      EqHooks fc (flexcache_maybe_scan_and_clean fc).1
    simp only [flexcache_maybe_scan_and_clean]
    split
    · have inv0 : CacheInv { fc with last_scan_ms := fc.now_ms } :=
        @cacheInv_base_eq fc { fc with last_scan_ms := fc.now_ms } rfl inv
      have h1 := remove_expired_inv fc.now_ms inv0
      have hp1 : ∀ p,
          (remove_expired { fc with last_scan_ms := fc.now_ms } fc.now_ms).1.pop_fn
            = some p → WBPop p := by
        intro p hp
        rw [(eqCfg_hooks h1.2).2] at hp
        exact wb.2 p hp
      have h2 := enforce_limits_inv h1.1 hp1
      have hh1 : EqHooks fc
          (remove_expired { fc with last_scan_ms := fc.now_ms } fc.now_ms).1 :=
        ⟨(eqCfg_hooks h1.2).1, (eqCfg_hooks h1.2).2⟩
      exact ⟨h2.1, eqHooks_trans hh1 (eqCfg_hooks h2.2)⟩
    · exact ⟨inv, eqHooks_refl fc⟩
  | clear =>
    show CacheInv (flexcache_destroy fc).1 ∧ EqHooks fc (flexcache_destroy fc).1
    have h := flexcache_destroy_inv inv
    exact ⟨h.1, eqCfg_hooks h.2⟩
  | setTime t =>
    exact ⟨@cacheInv_base_eq fc { fc with now_ms := t } rfl inv, eqHooks_refl fc⟩

theorem runFOps_inv : ∀ (ops : List FOp) (fc : FCache),
    CacheInv fc → WBHooks fc → CacheInv (runFOps fc ops) := by
  intro ops
  induction ops with
  | nil => intro fc inv _; exact inv
  | cons op ops ih =>
    intro fc inv wb
    have h := applyFOp_inv fc op inv wb
    exact ih (applyFOp fc op) h.1 (wbHooks_of_eqHooks h.2 wb)

/- ============================================================
   Characterization of capacity enforcement
   ============================================================ -/

theorem enforceLoop_not_over (fuel : Nat) {fc : FCache}
    (h : overLimit fc = false) : enforceLoop fuel fc = (fc, []) := by
  cases fuel with
  | zero => rfl
  | succ fuel =>
    simp only [enforceLoop]
    split
    · rename_i h2
      rw [h] at h2
      exact Bool.noConfusion h2
    · rfl

theorem enforceLoop_pop_none (fuel : Nat) {fc : FCache}
    (h : popVictim fc = none) : enforceLoop fuel fc = (fc, []) := by
  cases fuel with
  | zero => rfl
  | succ fuel =>
    simp only [enforceLoop]
    split
    · split
      · rfl
      · rename_i v hv
        rw [h] at hv
        exact Option.noConfusion hv
    · rfl

theorem enforceLoop_step {fuel : Nat} {fc : FCache} {v : BNode}
    (hov : overLimit fc = true) (hv : popVictim fc = some v) :
    enforceLoop (fuel + 1) fc =
      ((enforceLoop fuel (delete_node fc v).1).1,
        (delete_node fc v).2 ++ (enforceLoop fuel (delete_node fc v).1).2) := by
  simp only [enforceLoop]
  split
  · split
    · rename_i hn
      rw [hv] at hn
      exact Option.noConfusion hn
    · rename_i v2 hv2
      rw [hv] at hv2
      injection hv2 with hv2
      subst hv2
      rfl
  · rename_i hno
    exact absurd hov hno

theorem enforce_limits_not_over {fc : FCache}
    (h : overLimit fc = false) : enforce_limits fc = (fc, []) :=
  enforceLoop_not_over _ h

theorem enforce_limits_pop_none {fc : FCache}
    (h : popVictim fc = none) : enforce_limits fc = (fc, []) :=
  enforceLoop_pop_none _ h

theorem enforce_limits_step {fc : FCache} {v : BNode}
    (hov : overLimit fc = true) (hv : popVictim fc = some v)
    (hmem : v ∈ fc.base.list)
    (hc : fc.base.item_count = fc.base.list.length) :
    enforce_limits fc =
      ((enforce_limits (delete_node fc v).1).1,
        (delete_node fc v).2 ++ (enforce_limits (delete_node fc v).1).2) := by
  have hpos : 0 < fc.base.item_count := by
    rw [hc]
    exact List.length_pos_of_mem hmem
  have hcnt : (delete_node fc v).1.base.item_count + 1 = fc.base.item_count := by
    show fc.base.item_count - 1 + 1 = fc.base.item_count
    omega
  show enforceLoop (fc.base.item_count + 1) fc = _
  rw [← hcnt]
  exact enforceLoop_step hov hv

theorem overLimit_maxes_zero {fc : FCache}
    (h1 : fc.item_max = 0) (h2 : fc.byte_max = 0) : overLimit fc = false := by
  unfold overLimit
  rw [h1, h2]
  rfl

/- ============================================================
   C1
   ============================================================ -/

/-- C1: the claim says insert resolves the stored expiry as: TTL > 0 ⇒
saturating `now + TTL`; else absolute-expiry argument > 0 ⇒ that argument
verbatim; else 0.  The body in flexcache.c takes no absolute-expiry
argument at all and stores `safe_expiration now ttl`, which is 0 whenever
TTL = 0 — the verbatim middle case never happens.  This theorem evaluates
the code on the scenario of the repository's own test
`test_ttl_absolute_expiration` (insert at clock 1000 with ttl 0, absolute
expiry 5000; the test expects the entry gone at clock 6000): the stored
expiry is 0 (never expires) instead of the specified 5000, and the get at
clock 6000 still returns the value. -/
theorem c1_absolute_expiry_argument_ignored :
    safe_expiration 1000 0 = 0 ∧
    resolve_expiration_spec 1000 0 5000 = 5000 ∧
    (flexcache_insert plainCache [107] (some 7) 100 0).1 = 0 ∧
    bcache_get c1Inserted.base [107] =
      some ⟨[107], some ⟨some 7, 0⟩, 100⟩ ∧
    (flexcache_get { c1Inserted with now_ms := 6000 } [107]).1 = some 7 := by
  refine ⟨rfl, rfl, ?_, ?_, ?_⟩ <;> decide

/- ============================================================
   C5
   ============================================================ -/

/-- C5: the claim says the sweep observes every node present at its start
(so no expired entry survives `scan_and_clean`) and that `destroy` deletes
every entry and empties the container.  Both fail on the code: the
`do/while (n != head)` loops of `remove_expired` and `flexcache_destroy`
exit as soon as the deleted node was the list head, because `n` then
equals the re-read head.  Destroying the three-entry cache `c5Cache`
fires `on_delete` once and leaves two entries (the repository's own
`test_flexcache_destroy_cleans_all` asserts three `on_delete` calls), and
sweeping `c5SweepCache` (two entries, both expired) removes only the
first, leaving an expired entry stored. -/
theorem c5_destroy_and_sweep_stop_early :
    flexcache_item_count c5Cache = 3 ∧
    countEv FEvent.isOndelete (flexcache_destroy c5Cache).2 = 1 ∧
    flexcache_item_count (flexcache_destroy c5Cache).1 = 2 ∧
    hasExpiredEntry c5SweepCache = true ∧
    flexcache_item_count (flexcache_scan_and_clean c5SweepCache).1 = 1 ∧
    hasExpiredEntry (flexcache_scan_and_clean c5SweepCache).1 = true := by
  refine ⟨?_, ?_, ?_, ?_, ?_, ?_⟩ <;> decide

/- ============================================================
   C6
   ============================================================ -/

/-- C6: the claim says every successfully inserted entry receives exactly
one `on_delete` over the instance's lifetime, no matter how it leaves
(including destroy).  On the code this fails: after two successful
inserts, `flexcache_destroy` (the end of the instance's lifetime) fires
`on_delete` only for the first entry — the `[5]` entry never receives its
hook.  The one delivered invocation does carry the key, the key length,
the user value handle and the accounted size, and precedes every free
hook, as the explicit trace shows. -/
theorem c6_ondelete_not_fired_for_every_insert :
    (flexcache_insert (flexcache_init 0 0 0 false false false false true 1000)
      [4] (some 14) 7 0).1 = 0 ∧
    (flexcache_insert ((flexcache_insert
      (flexcache_init 0 0 0 false false false false true 1000)
      [4] (some 14) 7 0).2.1) [5] (some 15) 8 0).1 = 0 ∧
    countEv FEvent.isOndelete ((flexcache_insert
      (flexcache_init 0 0 0 false false false false true 1000)
      [4] (some 14) 7 0).2.2) = 0 ∧
    countEv FEvent.isOndelete ((flexcache_insert ((flexcache_insert
      (flexcache_init 0 0 0 false false false false true 1000)
      [4] (some 14) 7 0).2.1) [5] (some 15) 8 0).2.2) = 0 ∧
    (flexcache_destroy c6Cache).2 =
      [.ondelete [4] 1 (some 14) 7, .freeNode, .freeEntry] ∧
    countEv FEvent.isOndelete (flexcache_destroy c6Cache).2 = 1 := by
  refine ⟨?_, ?_, ?_, ?_, ?_, ?_⟩ <;> decide

/- ============================================================
   C4
   ============================================================ -/

/-- C4: capacity enforcement runs after every insert and at the end of
every scan, and is the only source of capacity-driven eviction in the
engine (every other deletion site is an expiry, an explicit delete or
destroy).  The conjuncts state: (1) when neither limit is exceeded the
loop does nothing; (2) when the policy's `pop` returns absent the loop
terminates immediately even while over limit; (3) while over limit with a
`pop`-returned member victim, the loop deletes the victim through the
deletion pipeline and continues; (4) with `item_max = 0` and
`byte_max = 0` the guard is never true, so no capacity-driven eviction
ever occurs; (5) `scan_and_clean` ends with `enforce_limits`; (6) a
successful insert ends with `enforce_limits`. -/
theorem c4_capacity_enforcement_loop :
    (∀ fc : FCache, overLimit fc = false → enforce_limits fc = (fc, [])) ∧
    (∀ fc : FCache, overLimit fc = true → popVictim fc = none →
       enforce_limits fc = (fc, [])) ∧
    (∀ (fc : FCache) (v : BNode), overLimit fc = true →
       popVictim fc = some v → v ∈ fc.base.list →
       fc.base.item_count = fc.base.list.length →
       enforce_limits fc =
         ((enforce_limits (delete_node fc v).1).1,
           (delete_node fc v).2 ++ (enforce_limits (delete_node fc v).1).2)) ∧
    (∀ fc : FCache, fc.item_max = 0 → fc.byte_max = 0 →
       enforce_limits fc = (fc, [])) ∧
    (∀ fc : FCache, flexcache_scan_and_clean fc =
       ((enforce_limits (remove_expired fc fc.now_ms).1).1,
         (remove_expired fc fc.now_ms).2 ++
           (enforce_limits (remove_expired fc fc.now_ms).1).2)) ∧
    (∀ (fc : FCache) (k : BKey) (v : Handle) (sz : Int) (ttl : Instant)
       (base1 : BCache), ¬(k = [] ∨ sz < 0) →
       ¬(fc.value_copy = true ∧ v = none) →
       bcache_insert fc.base ⟨k, some ⟨v, safe_expiration fc.now_ms ttl⟩, sz⟩
         = some base1 →
       (flexcache_insert fc k v sz ttl).2.1 =
         (enforce_limits { fc with base := base1 }).1) := by
  refine ⟨?_, ?_, ?_, ?_, ?_, ?_⟩
  · intro fc h
    exact enforce_limits_not_over h
  · intro fc _ hp
    exact enforce_limits_pop_none hp
  · intro fc v hov hv hmem hc
    exact enforce_limits_step hov hv hmem hc
  · intro fc h1 h2
    exact enforce_limits_not_over (overLimit_maxes_zero h1 h2)
  · intro fc
    rfl
  · intro fc k v sz ttl base1 h1 h2 hbi
    simp only [flexcache_insert]
    rw [if_neg h1, if_neg h2, hbi]

/-- Witness for C4 at concrete states: `c4Over` is one item over
`item_max = 1` with the LRU policy, whose pop picks the head `wNode1`;
`c4OverNone` is the same state with a pop that returns absent;
`plainCache` has both limits disabled. -/
theorem c4_witness :
    overLimit c4Over = true ∧ popVictim c4Over = some wNode1 ∧
    enforce_limits c4Over =
      ((enforce_limits (delete_node c4Over wNode1).1).1,
        (delete_node c4Over wNode1).2 ++
          (enforce_limits (delete_node c4Over wNode1).1).2) ∧
    overLimit c4OverNone = true ∧ popVictim c4OverNone = none ∧
    enforce_limits c4OverNone = (c4OverNone, []) ∧
    enforce_limits plainCache = (plainCache, []) := by
  have h := c4_capacity_enforcement_loop
  refine ⟨by decide, ?_, ?_, by decide, ?_, ?_, ?_⟩
  · rfl
  · exact h.2.2.1 c4Over wNode1 (by decide) rfl (by decide) (by decide)
  · rfl
  · exact h.2.1 c4OverNone (by decide) rfl
  · exact h.2.2.2.1 plainCache rfl rfl

/- ============================================================
   C9
   ============================================================ -/

/-- C9: `flexcache_init` leaves both policy hooks null; with a null `pop`
hook `enforce_limits` never evicts anything (the limits may be exceeded
indefinitely), and with a null `touch` hook a non-expired hit returns the
value with the state completely unchanged — no touch callback runs. -/
theorem c9_init_has_no_hooks_no_eviction :
    (∀ (im : Nat) (bm : Int) (si : Instant) (kc kf vc vf od : Bool)
       (now : Instant),
       (flexcache_init im bm si kc kf vc vf od now).touch_fn = none ∧
       (flexcache_init im bm si kc kf vc vf od now).pop_fn = none) ∧
    (∀ fc : FCache, fc.pop_fn = none → enforce_limits fc = (fc, [])) ∧
    (∀ (fc : FCache) (k : BKey) (n : BNode), fc.touch_fn = none →
       bcache_get fc.base k = some n →
       entryExpired n.value fc.now_ms = false →
       flexcache_get fc k =
         ((match n.value with
           | some e => e.user_value
           | none => none), fc, [])) := by
  refine ⟨?_, ?_, ?_⟩
  · intro im bm si kc kf vc vf od now
    exact ⟨rfl, rfl⟩
  · intro fc h
    apply enforce_limits_pop_none
    unfold popVictim
    rw [h]
  · intro fc k n ht hget hexp
    have hk : k ≠ [] := (bcache_get_some hget).1
    simp only [flexcache_get]
    rw [if_neg hk, hget]
    show (if entryExpired n.value fc.now_ms = true then
        (none, (delete_node fc n).1, (delete_node fc n).2)
      else ((match n.value with
        | some e => e.user_value
        | none => none),
        (match fc.touch_fn with
         | some t => { fc with base := t fc.base n }
         | none => fc), ([] : List FEvent))) = _
    rw [hexp, if_neg Bool.false_ne_true, ht]

/-- Witness for C9: `c9Over` is over `item_max` with both hooks null —
enforcement leaves it untouched — and a get of its stored key `[1]`
returns the value without any state change. -/
theorem c9_witness :
    (flexcache_init 3 7 5 true false true false true 42).touch_fn = none ∧
    (flexcache_init 3 7 5 true false true false true 42).pop_fn = none ∧
    overLimit c9Over = true ∧
    enforce_limits c9Over = (c9Over, []) ∧
    flexcache_get c9Over [1] = (some 1, c9Over, []) := by
  have h := c9_init_has_no_hooks_no_eviction
  refine ⟨(h.1 3 7 5 true false true false true 42).1,
    (h.1 3 7 5 true false true false true 42).2, by decide,
    h.2.1 c9Over rfl, ?_⟩
  exact h.2.2 c9Over [1] wNode1 rfl (by decide) (by decide)

/- ============================================================
   C3
   ============================================================ -/

/-- C3: behaviour of `flexcache_get`.  (1) A present key whose entry has a
nonzero expiry with expiry ≤ now is removed through the full deletion
pipeline (`delete_node`) and absent (`NULL`) is returned.  (2) A present
key that is not expired (expiry 0, or expiry > now) returns the host
value handle and invokes the configured policy touch on the node (no
other state change).  (3) An absent key returns absent and leaves the
state unchanged. -/
theorem c3_get_expiry_touch_absent :
    (∀ (fc : FCache) (k : BKey) (n : BNode) (e : FEntry),
       bcache_get fc.base k = some n → n.value = some e →
       e.expires_at_ms ≠ 0 → e.expires_at_ms ≤ fc.now_ms →
       flexcache_get fc k =
         (none, (delete_node fc n).1, (delete_node fc n).2)) ∧
    (∀ (fc : FCache) (k : BKey) (n : BNode) (e : FEntry),
       bcache_get fc.base k = some n → n.value = some e →
       (e.expires_at_ms = 0 ∨ fc.now_ms < e.expires_at_ms) →
       flexcache_get fc k =
         (e.user_value,
           (match fc.touch_fn with
            | some t => { fc with base := t fc.base n }
            | none => fc), [])) ∧
    (∀ (fc : FCache) (k : BKey), bcache_get fc.base k = none →
       flexcache_get fc k = (none, fc, [])) := by
  refine ⟨?_, ?_, ?_⟩
  · intro fc k n e hget hv h0 hle
    have hk : k ≠ [] := (bcache_get_some hget).1
    have hexp : entryExpired n.value fc.now_ms = true := by
      rw [hv]
      simp [entryExpired, h0, hle]
    simp only [flexcache_get]
    rw [if_neg hk, hget]
    show (if entryExpired n.value fc.now_ms = true then
        (none, (delete_node fc n).1, (delete_node fc n).2)
      else ((match n.value with
        | some e => e.user_value
        | none => none),
        (match fc.touch_fn with
         | some t => { fc with base := t fc.base n }
         | none => fc), ([] : List FEvent))) = _
    rw [hexp, if_pos rfl]
  · intro fc k n e hget hv hne
    have hk : k ≠ [] := (bcache_get_some hget).1
    have hexp : entryExpired n.value fc.now_ms = false := by
      rw [hv]
      rcases hne with h0 | hlt
      · simp [entryExpired, h0]
      · simp [entryExpired, Nat.not_le.mpr hlt]
    simp only [flexcache_get]
    rw [if_neg hk, hget]
    show (if entryExpired n.value fc.now_ms = true then
        (none, (delete_node fc n).1, (delete_node fc n).2)
      else ((match n.value with
        | some e => e.user_value
        | none => none),
        (match fc.touch_fn with
         | some t => { fc with base := t fc.base n }
         | none => fc), ([] : List FEvent))) = _
    rw [hexp, if_neg Bool.false_ne_true, hv]
  · intro fc k hget
    simp only [flexcache_get]
    by_cases hk : k = []
    · rw [if_pos hk]
    · rw [if_neg hk, hget]

/-- Witness for C3: in `c3Expired` the key `[1]` is stored expired (expiry
6000, clock 7000) — get deletes it and returns absent; in `c3Hit` the key
`[2]` never expires — get returns the handle `some 8` and applies the LRU
touch; the key `[6]` is absent — get returns absent unchanged. -/
theorem c3_witness :
    flexcache_get c3Expired [1] =
      (none, (delete_node c3Expired ⟨[1], some ⟨some 7, 6000⟩, 100⟩).1,
        (delete_node c3Expired ⟨[1], some ⟨some 7, 6000⟩, 100⟩).2) ∧
    flexcache_get c3Hit [2] =
      (some 8,
        { c3Hit with base := lru_touch c3Hit.base ⟨[2], some ⟨some 8, 0⟩, 50⟩ },
        []) ∧
    flexcache_get c3Hit [6] = (none, c3Hit, []) := by
  have h := c3_get_expiry_touch_absent
  refine ⟨?_, ?_, h.2.2 c3Hit [6] (by decide)⟩
  · exact h.1 c3Expired [1] ⟨[1], some ⟨some 7, 6000⟩, 100⟩ ⟨some 7, 6000⟩
      (by decide) rfl (by decide) (by decide)
  · exact h.2.1 c3Hit [2] ⟨[2], some ⟨some 8, 0⟩, 50⟩ ⟨some 8, 0⟩
      (by decide) rfl (Or.inl rfl)

/- ============================================================
   C2
   ============================================================ -/

/-- C2: inserting a key already present returns the duplicate status
`-1`, returns exactly the prior cache state (so `item_count`,
`total_bytes` and the stored entries are untouched), and — under the
paired copy/free hook configuration of the spec (a free hook is
configured exactly when the matching copy hook is, and a value copy is
only attempted on a non-null handle) — the call's event trace frees every
allocation it performed: key copy, value copy, entry wrapper and node
storage each have equal allocation and free counts. -/
theorem c2_duplicate_insert_rolls_back (fc : FCache) (k : BKey) (v : Handle)
    (sz : Int) (ttl : Instant)
    (hk : fc.base.containsKey k = true)
    (hne : k ≠ []) (hsz : 0 ≤ sz)
    (hv : fc.value_copy = true → v ≠ none)
    (hkf : fc.key_free = fc.key_copy) (hvf : fc.value_free = fc.value_copy) :
    (flexcache_insert fc k v sz ttl).1 = -1 ∧
    (flexcache_insert fc k v sz ttl).2.1 = fc ∧
    countEv FEvent.isAllocKey (flexcache_insert fc k v sz ttl).2.2 =
      countEv FEvent.isKeyFree (flexcache_insert fc k v sz ttl).2.2 ∧
    countEv FEvent.isAllocValue (flexcache_insert fc k v sz ttl).2.2 =
      countEv FEvent.isValueFree (flexcache_insert fc k v sz ttl).2.2 ∧
    countEv FEvent.isAllocEntry (flexcache_insert fc k v sz ttl).2.2 =
      countEv FEvent.isFreeEntry (flexcache_insert fc k v sz ttl).2.2 ∧
    countEv FEvent.isAllocNode (flexcache_insert fc k v sz ttl).2.2 =
      countEv FEvent.isFreeNode (flexcache_insert fc k v sz ttl).2.2 := by
  obtain ⟨m, hm⟩ := Option.isSome_iff_exists.mp hk
  have hbi : bcache_insert fc.base
      ⟨k, some ⟨v, safe_expiration fc.now_ms ttl⟩, sz⟩ = none := by
    unfold bcache_insert
    rw [show (⟨k, some ⟨v, safe_expiration fc.now_ms ttl⟩, sz⟩ : BNode).key = k
      from rfl, hm]
  have h1 : ¬(k = [] ∨ sz < 0) := by
    intro hor
    rcases hor with h | h
    · exact hne h
    · exact absurd hsz (not_le.mpr h)
  have h2 : ¬(fc.value_copy = true ∧ v = none) := by
    intro hand
    exact hv hand.1 hand.2
  simp only [flexcache_insert]
  rw [if_neg h1, if_neg h2, hbi]
  refine ⟨rfl, rfl, ?_, ?_, ?_, ?_⟩ <;>
  · rw [hkf, hvf]
    cases hkc : fc.key_copy <;> cases hvc : fc.value_copy
    · simp [countEv, FEvent.isAllocKey, FEvent.isKeyFree, FEvent.isAllocValue,
        FEvent.isValueFree, FEvent.isAllocEntry, FEvent.isFreeEntry,
        FEvent.isAllocNode, FEvent.isFreeNode, List.filter]
      cases v <;> simp
    · rcases hvx : v with _ | x
      · exact absurd hvx (hv hvc)
      · simp [countEv, FEvent.isAllocKey, FEvent.isKeyFree, FEvent.isAllocValue,
          FEvent.isValueFree, FEvent.isAllocEntry, FEvent.isFreeEntry,
          FEvent.isAllocNode, FEvent.isFreeNode, List.filter]
    · simp [countEv, FEvent.isAllocKey, FEvent.isKeyFree, FEvent.isAllocValue,
        FEvent.isValueFree, FEvent.isAllocEntry, FEvent.isFreeEntry,
        FEvent.isAllocNode, FEvent.isFreeNode, List.filter]
      cases v <;> simp
    · rcases hvx : v with _ | x
      · exact absurd hvx (hv hvc)
      · simp [countEv, FEvent.isAllocKey, FEvent.isKeyFree, FEvent.isAllocValue,
          FEvent.isValueFree, FEvent.isAllocEntry, FEvent.isFreeEntry,
          FEvent.isAllocNode, FEvent.isFreeNode, List.filter]

/-- Witness for C2: duplicate insert of key `[9]` into `c2Cache` (key and
value copy/free hooks all configured). -/
theorem c2_witness :
    c2Cache.base.containsKey [9] = true ∧
    (flexcache_insert c2Cache [9] (some 6) 10 0).1 = -1 ∧
    (flexcache_insert c2Cache [9] (some 6) 10 0).2.1 = c2Cache ∧
    countEv FEvent.isAllocKey (flexcache_insert c2Cache [9] (some 6) 10 0).2.2 =
      countEv FEvent.isKeyFree (flexcache_insert c2Cache [9] (some 6) 10 0).2.2 ∧
    countEv FEvent.isAllocValue (flexcache_insert c2Cache [9] (some 6) 10 0).2.2 =
      countEv FEvent.isValueFree (flexcache_insert c2Cache [9] (some 6) 10 0).2.2 := by
  have h := c2_duplicate_insert_rolls_back c2Cache [9] (some 6) 10 0
    (by decide) (by decide) (by decide) (fun _ => by decide) rfl rfl
  exact ⟨by decide, h.1, h.2.1, h.2.2.1, h.2.2.2.1⟩

/- ============================================================
   C10
   ============================================================ -/

/-- C10: with no value copy hook configured, insert accepts a null
(`none`) value handle and stores it verbatim; a later get of that
non-expired key invokes the touch branch and returns `NULL` — the same
result a get of an absent key produces — so a null return from get does
not imply the key is absent. -/
theorem c10_null_value_indistinguishable_from_absent :
    (∀ (fc : FCache) (k : BKey) (sz : Int) (ttl : Instant),
       fc.value_copy = false → k ≠ [] → 0 ≤ sz →
       fc.base.containsKey k = false → fc.item_max = 0 → fc.byte_max = 0 →
       (flexcache_insert fc k none sz ttl).1 = 0 ∧
       bcache_get (flexcache_insert fc k none sz ttl).2.1.base k =
         some ⟨k, some ⟨none, safe_expiration fc.now_ms ttl⟩, sz⟩) ∧
    (∀ (fc : FCache) (k : BKey) (n : BNode) (e : FEntry) (t : TouchFn),
       bcache_get fc.base k = some n → n.value = some e →
       e.user_value = none → entryExpired n.value fc.now_ms = false →
       fc.touch_fn = some t →
       flexcache_get fc k = (none, { fc with base := t fc.base n }, [])) ∧
    (∀ (fc : FCache) (k : BKey), bcache_get fc.base k = none →
       flexcache_get fc k = (none, fc, [])) := by
  refine ⟨?_, ?_, ?_⟩
  · intro fc k sz ttl hvc hne hsz hab him hbm
    have hfind : fc.base.findKey k = none := by
      cases hf : fc.base.findKey k with
      | none => rfl
      | some m =>
        unfold BCache.containsKey at hab
        rw [hf] at hab
        exact Bool.noConfusion hab
    have h1 : ¬(k = [] ∨ sz < 0) := by
      intro hor
      rcases hor with h | h
      · exact hne h
      · exact absurd hsz (not_le.mpr h)
    have h2 : ¬(fc.value_copy = true ∧ True) := by
      intro hand
      rw [hvc] at hand
      exact Bool.noConfusion hand.1
    have hbi : bcache_insert fc.base
        ⟨k, some ⟨none, safe_expiration fc.now_ms ttl⟩, sz⟩ = some
          { hashmap := fc.base.hashmap ++
              [⟨k, some ⟨none, safe_expiration fc.now_ms ttl⟩, sz⟩]
            list := fc.base.list ++
              [⟨k, some ⟨none, safe_expiration fc.now_ms ttl⟩, sz⟩]
            item_count := fc.base.item_count + 1
            total_bytes := fc.base.total_bytes + sz } := by
      unfold bcache_insert
      rw [show (⟨k, some ⟨none, safe_expiration fc.now_ms ttl⟩, sz⟩
        : BNode).key = k from rfl, hfind]
    simp only [flexcache_insert]
    rw [if_neg h1, if_neg h2, hbi]
    constructor
    · rfl
    · show bcache_get ((enforce_limits { fc with base :=
        { hashmap := fc.base.hashmap ++
            [⟨k, some ⟨none, safe_expiration fc.now_ms ttl⟩, sz⟩]
          list := fc.base.list ++
            [⟨k, some ⟨none, safe_expiration fc.now_ms ttl⟩, sz⟩]
          item_count := fc.base.item_count + 1
          total_bytes := fc.base.total_bytes + sz } }).1).base k = _
      have hel : enforce_limits { fc with base :=
        { hashmap := fc.base.hashmap ++
            [⟨k, some ⟨none, safe_expiration fc.now_ms ttl⟩, sz⟩]
          list := fc.base.list ++
            [⟨k, some ⟨none, safe_expiration fc.now_ms ttl⟩, sz⟩]
          item_count := fc.base.item_count + 1
          total_bytes := fc.base.total_bytes + sz } } = (_, []) :=
        enforce_limits_not_over (overLimit_maxes_zero him hbm)
      rw [hel]
      unfold bcache_get
      rw [if_neg hne]
      show (fc.base.hashmap ++
        [(⟨k, some ⟨none, safe_expiration fc.now_ms ttl⟩, sz⟩ : BNode)]).find?
          (fun m => m.key == k) = _
      rw [find?_append_of_none hfind]
      simp
  · intro fc k n e t hget hv huv hexp ht
    have hk : k ≠ [] := (bcache_get_some hget).1
    simp only [flexcache_get]
    rw [if_neg hk, hget]
    show (if entryExpired n.value fc.now_ms = true then
        (none, (delete_node fc n).1, (delete_node fc n).2)
      else ((match n.value with
        | some e => e.user_value
        | none => none),
        (match fc.touch_fn with
         | some t => { fc with base := t fc.base n }
         | none => fc), ([] : List FEvent))) = _
    rw [hexp, if_neg Bool.false_ne_true]
    simp only [hv, ht, huv]
  · intro fc k hget
    simp only [flexcache_get]
    by_cases hk : k = []
    · rw [if_pos hk]
    · rw [if_neg hk, hget]

/-- Witness for C10: inserting key `[3]` with a null value into an LRU
cache without a value copy hook succeeds and stores the null handle; the
get of present `[3]` and the get of absent `[9]` both return `none`,
while `[3]` is counted as stored. -/
theorem c10_witness :
    (flexcache_insert (flexcache_policy_lru_init
      (flexcache_init 0 0 0 false false false false false 1000))
      [3] none 10 0).1 = 0 ∧
    bcache_get c10Inserted.base [3] = some ⟨[3], some ⟨none, 0⟩, 10⟩ ∧
    flexcache_get c10Inserted [3] =
      (none, { c10Inserted with
        base := lru_touch c10Inserted.base ⟨[3], some ⟨none, 0⟩, 10⟩ }, []) ∧
    flexcache_get c10Inserted [9] = (none, c10Inserted, []) ∧
    flexcache_item_count c10Inserted = 1 := by
  have h := c10_null_value_indistinguishable_from_absent
  have h1 := h.1 (flexcache_policy_lru_init
    (flexcache_init 0 0 0 false false false false false 1000))
    [3] 10 0 rfl (by decide) (by decide) (by decide) rfl rfl
  refine ⟨h1.1, h1.2, ?_, h.2.2 c10Inserted [9] (by decide), by decide⟩
  exact h.2.1 c10Inserted [3] ⟨[3], some ⟨none, 0⟩, 10⟩ ⟨none, 0⟩ lru_touch
    (by decide) rfl rfl (by decide) rfl

/- ============================================================
   C7
   ============================================================ -/

/-- C7: after any sequence of operations (inserts, gets, deletes, sweeps
with their evictions, throttled sweeps, clears/destroys and clock
changes) starting from a state satisfying the container invariant, with
policy hooks honouring their contracts (touch only repositions, pop
returns a member or absent): each stored key occurs at most once, the
hash index and the list hold exactly the same keys, `item_count` equals
the number of (distinct) stored keys, and `total_bytes` equals the sum of
the stored accounted byte sizes. -/
theorem c7_counters_and_dual_index (fc : FCache) (ops : List FOp)
    (hinv : CacheInv fc) (hwb : WBHooks fc) :
    (nodeKeys (runFOps fc ops).base.list).Nodup ∧
    (∀ k : BKey, k ∈ nodeKeys (runFOps fc ops).base.hashmap ↔
       k ∈ nodeKeys (runFOps fc ops).base.list) ∧
    (runFOps fc ops).base.item_count =
      (nodeKeys (runFOps fc ops).base.list).length ∧
    (runFOps fc ops).base.total_bytes =
      ((runFOps fc ops).base.list.map (fun n => n.byte_size)).sum := by
  have h := runFOps_inv ops fc hinv hwb
  refine ⟨h.nodup, ?_, ?_, h.bytes⟩
  · intro k
    exact (h.perm.map (fun n => n.key)).mem_iff
  · rw [h.count]
    unfold nodeKeys
    rw [List.length_map]

/-- Witness for C7: the mixed sequence `c7Ops` (inserts, a hit, a
duplicate insert, a TTL entry, clock advance, sweep, a missing-key get,
delete, throttled sweep, destroy) run on the capped LRU cache
`lruSmall`. -/
theorem c7_witness :
    (nodeKeys (runFOps lruSmall c7Ops).base.list).Nodup ∧
    ([1] ∈ nodeKeys (runFOps lruSmall c7Ops).base.hashmap ↔
      [1] ∈ nodeKeys (runFOps lruSmall c7Ops).base.list) ∧
    (runFOps lruSmall c7Ops).base.item_count =
      (nodeKeys (runFOps lruSmall c7Ops).base.list).length ∧
    (runFOps lruSmall c7Ops).base.total_bytes =
      ((runFOps lruSmall c7Ops).base.list.map (fun n => n.byte_size)).sum := by
  have h := c7_counters_and_dual_index lruSmall c7Ops
    ⟨List.Perm.refl _, List.nodup_nil, rfl, rfl⟩ (wbHooks_lruCache _)
  exact ⟨h.1, h.2.1 [1], h.2.2.1, h.2.2.2⟩

/- ============================================================
   C8: LRU refinement
   ============================================================ -/

theorem map_erase_of_injOn {α : Type} [BEq α] [LawfulBEq α] (f : BNode → α) :
    ∀ (l : List BNode) (n : BNode), n ∈ l →
      (∀ x ∈ l, f x = f n → x = n) →
      (l.erase n).map f = (l.map f).erase (f n) := by
  intro l
  induction l with
  | nil => intro n hn _; cases hn
  | cons x xs ih =>
    intro n hn hinj
    by_cases hx : x = n
    · subst hx
      rw [List.erase_cons_head, List.map_cons, List.erase_cons_head]
    · have hfx : f x ≠ f n := fun he => hx (hinj x (List.mem_cons_self x xs) he)
      have hn' : n ∈ xs := by
        cases hn with
        | head => exact absurd rfl hx
        | tail _ hh => exact hh
      rw [List.erase_cons_tail (by simp [hx]), List.map_cons, List.map_cons,
        List.erase_cons_tail (by simp [hfx]),
        ih n hn' (fun y hy => hinj y (List.mem_cons_of_mem x hy))]

theorem specLookup_proj (fc : FCache) (k : BKey) :
    specLookup (projList fc) k =
      Option.map nodeProj (fc.base.list.find? (fun m => m.key == k)) := by
  unfold specLookup projList
  rw [List.find?_map]
  rfl

theorem overLimit_proj {im : Nat} {bm : Int} {fc : FCache} {s : RecencyList}
    (hp : projList fc = s) (inv : CacheInv fc)
    (him : fc.item_max = im) (hbm : fc.byte_max = bm) :
    overLimit fc = specOver im bm s := by
  unfold overLimit specOver
  rw [him, hbm, inv.count, inv.bytes, ← hp]
  unfold projList
  rw [List.length_map, List.map_map]
  rfl

theorem popVictim_lru {fc : FCache} (h : fc.pop_fn = some lru_pop) :
    popVictim fc = fc.base.list.head? := by
  unfold popVictim
  rw [h]
  rfl

theorem enforceLoop_lruSpec {im : Nat} {bm : Int} : ∀ (fuel : Nat)
    (fc : FCache) (s : RecencyList), LruRel im bm fc s →
    LruRel im bm (enforceLoop fuel fc).1 (specEvict im bm fuel s) := by
  intro fuel
  induction fuel with
  | zero => intro fc s h; exact h
  | succ fuel ih =>
    intro fc s h
    have hov : overLimit fc = specOver im bm s :=
      overLimit_proj h.proj h.inv h.imax h.bmax
    by_cases hovb : overLimit fc = true
    · have hso : specOver im bm s = true := by rw [← hov]; exact hovb
      have hpv : popVictim fc = fc.base.list.head? := popVictim_lru h.pop
      cases hl : fc.base.list with
      | nil =>
        have hpn : popVictim fc = none := by rw [hpv, hl]; rfl
        rw [enforceLoop_pop_none _ hpn]
        have hs : s = [] := by
          rw [← h.proj]
          unfold projList
          rw [hl]
          rfl
        subst hs
        have hse : specEvict im bm (fuel + 1) [] = [] := by
          simp only [specEvict]
          split <;> rfl
        rw [hse]
        exact h
      | cons hd tl =>
        have hpv2 : popVictim fc = some hd := by rw [hpv, hl]; rfl
        have hmem : hd ∈ fc.base.list := by
          rw [hl]
          exact List.mem_cons_self _ _
        rw [enforceLoop_step hovb hpv2]
        have hs : s = nodeProj hd :: List.map nodeProj tl := by
          rw [← h.proj]
          unfold projList
          rw [hl]
          rfl
        subst hs
        have hse : specEvict im bm (fuel + 1)
            (nodeProj hd :: List.map nodeProj tl) =
            specEvict im bm fuel (List.map nodeProj tl) := by
          simp only [specEvict]
          rw [if_pos hso]
        rw [hse]
        apply ih
        constructor
        · show (fc.base.list.erase hd).map nodeProj = _
          rw [hl, List.erase_cons_head]
        · exact cacheInv_delete h.inv hmem
        · exact h.touch
        · exact h.pop
        · exact h.imax
        · exact h.bmax
        · exact h.vcopy
        · intro n hn
          exact h.entries n (List.mem_of_mem_erase hn)
    · have hovf : overLimit fc = false := Bool.eq_false_iff.mpr hovb
      rw [enforceLoop_not_over _ hovf]
      have hsof : specOver im bm s = false := by rw [← hov]; exact hovf
      have hne : ¬ specOver im bm s = true := by
        rw [hsof]
        exact Bool.false_ne_true
      have hse : specEvict im bm (fuel + 1) s = s := by
        simp only [specEvict]
        rw [if_neg hne]
      rw [hse]
      exact h

theorem flexcache_get_hit_state {fc : FCache} {k : BKey} {n : BNode}
    {t : TouchFn} (hget : bcache_get fc.base k = some n)
    (hexp : entryExpired n.value fc.now_ms = false)
    (ht : fc.touch_fn = some t) :
    (flexcache_get fc k).2.1 = { fc with base := t fc.base n } := by
  have hk : k ≠ [] := (bcache_get_some hget).1
  simp only [flexcache_get]
  rw [if_neg hk, hget]
  show ((if entryExpired n.value fc.now_ms = true then
      (none, (delete_node fc n).1, (delete_node fc n).2)
    else ((match n.value with
      | some e => e.user_value
      | none => none),
      (match fc.touch_fn with
       | some t2 => { fc with base := t2 fc.base n }
       | none => fc), ([] : List FEvent)))).2.1 = _
  rw [hexp, if_neg Bool.false_ne_true, ht]

theorem applyLruOp_spec {im : Nat} {bm : Int} (fc : FCache) (s : RecencyList)
    (op : LruOp) (h : LruRel im bm fc s) :
    LruRel im bm (applyLruOp fc op) (specStep im bm s op) := by
  cases op with
  | ins k v sz =>
    show LruRel im bm (flexcache_insert fc k v sz 0).2.1
      (specStep im bm s (.ins k v sz))
    by_cases hbad : k = [] ∨ sz < 0
    · simp only [flexcache_insert, specStep]
      rw [if_pos hbad, if_pos hbad]
      exact h
    · have hvc2 : ¬(fc.value_copy = true ∧ v = none) := fun hand => by
        rw [h.vcopy] at hand
        exact Bool.noConfusion hand.1
      have hfind : fc.base.findKey k =
          fc.base.list.find? (fun m => m.key == k) :=
        findKey_eq_list_find? h.inv k
      have hlook : specLookup s k =
          Option.map nodeProj (fc.base.list.find? (fun m => m.key == k)) := by
        rw [← h.proj]
        exact specLookup_proj fc k
      simp only [flexcache_insert, specStep]
      rw [if_neg hbad, if_neg hvc2, if_neg hbad]
      cases hf : fc.base.list.find? (fun m => m.key == k) with
      | some m =>
        have hbi : bcache_insert fc.base
            ⟨k, some ⟨v, safe_expiration fc.now_ms 0⟩, sz⟩ = none := by
          unfold bcache_insert
          rw [show (⟨k, some ⟨v, safe_expiration fc.now_ms 0⟩, sz⟩
            : BNode).key = k from rfl, hfind, hf]
        have hsk : (specLookup s k).isSome = true := by
          rw [hlook, hf]
          rfl
        rw [hbi, if_pos hsk]
        exact h
      | none =>
        have hbi : bcache_insert fc.base
            ⟨k, some ⟨v, safe_expiration fc.now_ms 0⟩, sz⟩ = some
              { hashmap := fc.base.hashmap ++
                  [⟨k, some ⟨v, safe_expiration fc.now_ms 0⟩, sz⟩]
                list := fc.base.list ++
                  [⟨k, some ⟨v, safe_expiration fc.now_ms 0⟩, sz⟩]
                item_count := fc.base.item_count + 1
                total_bytes := fc.base.total_bytes + sz } := by
          unfold bcache_insert
          rw [show (⟨k, some ⟨v, safe_expiration fc.now_ms 0⟩, sz⟩
            : BNode).key = k from rfl, hfind, hf]
        have hsk : ¬ (specLookup s k).isSome = true := by
          rw [hlook, hf]
          exact Bool.false_ne_true
        rw [hbi, if_neg hsk]
        have hrel1 : LruRel im bm { fc with base :=
            { hashmap := fc.base.hashmap ++
                [⟨k, some ⟨v, safe_expiration fc.now_ms 0⟩, sz⟩]
              list := fc.base.list ++
                [⟨k, some ⟨v, safe_expiration fc.now_ms 0⟩, sz⟩]
              item_count := fc.base.item_count + 1
              total_bytes := fc.base.total_bytes + sz } }
            (s ++ [(k, sz)]) := by
          constructor
          · show (fc.base.list ++
              [(⟨k, some ⟨v, safe_expiration fc.now_ms 0⟩, sz⟩ : BNode)]).map
                nodeProj = s ++ [(k, sz)]
            have hp : List.map nodeProj fc.base.list = s := h.proj
            rw [List.map_append, hp]
            rfl
          · exact cacheInv_bcache_insert h.inv hbi
          · exact h.touch
          · exact h.pop
          · exact h.imax
          · exact h.bmax
          · exact h.vcopy
          · intro n hn
            rcases List.mem_append.mp hn with hn | hn
            · exact h.entries n hn
            · rw [List.mem_singleton] at hn
              subst hn
              exact ⟨fun he => hbad (Or.inl he), v, rfl⟩
        have hfuel : fc.base.item_count + 1 + 1 = s.length + 2 := by
          rw [h.inv.count, ← h.proj]
          unfold projList
          rw [List.length_map]
        rw [← hfuel]
        exact enforceLoop_lruSpec _ _ _ hrel1
  | get k =>
    show LruRel im bm (flexcache_get fc k).2.1 (specStep im bm s (.get k))
    by_cases hk : k = []
    · have hc : (flexcache_get fc k).2.1 = fc := by
        simp only [flexcache_get]
        rw [if_pos hk]
      have hs : specStep im bm s (.get k) = s := by
        simp only [specStep]
        rw [if_pos hk]
      rw [hc, hs]
      exact h
    · have hget : bcache_get fc.base k =
          fc.base.list.find? (fun m => m.key == k) := by
        unfold bcache_get
        rw [if_neg hk]
        exact findKey_eq_list_find? h.inv k
      have hlook : specLookup s k =
          Option.map nodeProj (fc.base.list.find? (fun m => m.key == k)) := by
        rw [← h.proj]
        exact specLookup_proj fc k
      cases hf : fc.base.list.find? (fun m => m.key == k) with
      | none =>
        have hc : (flexcache_get fc k).2.1 = fc := by
          simp only [flexcache_get]
          rw [if_neg hk, hget, hf]
        have hs : specStep im bm s (.get k) = s := by
          simp only [specStep]
          rw [if_neg hk]
          have hlk : specLookup s k = none := by rw [hlook, hf]; rfl
          simp only [hlk]
        rw [hc, hs]
        exact h
      | some n =>
        have hmem : n ∈ fc.base.list := List.mem_of_find?_eq_some hf
        obtain ⟨hkne, uv, hval⟩ := h.entries n hmem
        have hexp : entryExpired n.value fc.now_ms = false := by
          rw [hval]
          rfl
        have hc : (flexcache_get fc k).2.1 =
            { fc with base := lru_touch fc.base n } :=
          flexcache_get_hit_state (by rw [hget, hf]) hexp h.touch
        have hs : specStep im bm s (.get k) =
            (s.erase (nodeProj n)) ++ [nodeProj n] := by
          simp only [specStep]
          rw [if_neg hk]
          have hlk : specLookup s k = some (nodeProj n) := by
            rw [hlook, hf]
            rfl
          simp only [hlk]
        rw [hc, hs]
        constructor
        · show ((fc.base.list.erase n) ++ [n]).map nodeProj = _
          have hp : List.map nodeProj fc.base.list = s := h.proj
          rw [List.map_append,
            map_erase_of_injOn nodeProj fc.base.list n hmem
              (fun x hx he => eq_of_mem_of_keys_nodup h.inv.nodup hx hmem
                (congrArg Prod.fst he)),
            hp]
          rfl
        · exact cacheInv_touch h.inv wbTouch_lru hmem
        · exact h.touch
        · exact h.pop
        · exact h.imax
        · exact h.bmax
        · exact h.vcopy
        · intro m hm
          rcases List.mem_append.mp hm with hm | hm
          · exact h.entries m (List.mem_of_mem_erase hm)
          · rw [List.mem_singleton] at hm
            subst hm
            exact h.entries m hmem

theorem runLru_spec (im : Nat) (bm : Int) : ∀ (ops : List LruOp)
    (fc : FCache) (s : RecencyList), LruRel im bm fc s →
    LruRel im bm (runLru fc ops) (specRun im bm s ops) := by
  intro ops
  induction ops with
  | nil => intro fc s h; exact h
  | cons op ops ih =>
    intro fc s h
    exact ih (applyLruOp fc op) (specStep im bm s op) (applyLruOp_spec fc s op h)

theorem lruRel_init (im : Nat) (bm : Int) (now : Instant) :
    LruRel im bm (lruCache im bm now) [] := by
  constructor
  · rfl
  · exact ⟨List.Perm.refl _, List.nodup_nil, rfl, rfl⟩
  · rfl
  · rfl
  · rfl
  · rfl
  · rfl
  · intro n hn
    exact absurd hn (List.not_mem_nil n)

/-- C8: under the LRU policy, `touch` moves the hit node to the list tail
and `pop` returns the list head; consequently, for every sequence of
inserts (TTL 0, hence never expiring) and gets starting from an
LRU-initialized cache, the concrete list of (key, size) pairs equals the
run of the abstract recency machine — which appends fresh inserts at the
most-recently-used end, moves every hit to that end and evicts from the
least-recently-used end — and the next victim capacity enforcement would
pick (`pop`) is the head of that recency order: the key least recently
returned by `get`, or least recently inserted if never `get`-ed. -/
theorem c8_lru_victim_is_least_recently_used :
    (∀ (b : BCache) (n : BNode), (lru_touch b n).list = b.list.erase n ++ [n]) ∧
    (∀ b : BCache, lru_pop b = b.list.head?) ∧
    (∀ (im : Nat) (bm : Int) (now : Instant) (ops : List LruOp),
       projList (runLru (lruCache im bm now) ops) = specRun im bm [] ops ∧
       Option.map (fun n => n.key)
         (popVictim (runLru (lruCache im bm now) ops)) =
         Option.map Prod.fst (specRun im bm [] ops).head?) := by
  refine ⟨fun b n => rfl, fun b => rfl, ?_⟩
  intro im bm now ops
  have h := runLru_spec im bm ops (lruCache im bm now) [] (lruRel_init im bm now)
  refine ⟨h.proj, ?_⟩
  rw [popVictim_lru h.pop, ← h.proj]
  unfold projList
  rw [List.head?_map]
  cases (runLru (lruCache im bm now) ops).base.list.head? <;> rfl
